import Mathlib

/-!
Shallow embedding of the lazy stream core in `src/streams.rs` (the `noulith`
interpreter's stream engine), together with proofs settling the frozen claims
about it.  Each stream's `next` is modelled as an explicit state-transition
function; a Rust `Option<NRes<Obj>>` pull result becomes
`Option (NRes Obj)`; a Rust panic (usize underflow / division by zero) is
modelled by an explicit `panicked` constructor.
-/

set_option maxHeartbeats 1000000

namespace Noulith

/-- Dynamic values.  Modelled from the spec (`core.rs` is not among the
sources): the stream core only needs that values hold arbitrary-precision
integers (`Obj::Num`, modelled with `Int`) and sequences; the only sequence
shape the claims exercise is `Obj::Seq(Seq::List(v))`, modelled as
`Obj.list v`. -/
inductive Obj where
  | num : Int → Obj
  | list : List Obj → Obj

mutual

def decEqObj : (a b : Obj) → Decidable (a = b)
  | .num x, .num y =>
    match decEq x y with
    | .isTrue h => .isTrue (by rw [h])
    | .isFalse h => .isFalse (fun hh => h (Obj.num.inj hh))
  | .num _, .list _ => .isFalse (fun h => Obj.noConfusion h)
  | .list _, .num _ => .isFalse (fun h => Obj.noConfusion h)
  | .list as, .list bs =>
    match decEqObjList as bs with
    | .isTrue h => .isTrue (by rw [h])
    | .isFalse h => .isFalse (fun hh => h (Obj.list.inj hh))

def decEqObjList : (as bs : List Obj) → Decidable (as = bs)
  | [], [] => .isTrue rfl
  | [], _ :: _ => .isFalse (fun h => List.noConfusion h)
  | _ :: _, [] => .isFalse (fun h => List.noConfusion h)
  | a :: as, b :: bs =>
    match decEqObj a b, decEqObjList as bs with
    | .isTrue h1, .isTrue h2 => .isTrue (by rw [h1, h2])
    | .isFalse h1, _ => .isFalse (fun hh => h1 (List.cons.inj hh).1)
    | _, .isFalse h2 => .isFalse (fun hh => h2 (List.cons.inj hh).2)

end

instance : DecidableEq Obj := decEqObj

instance : Inhabited Obj := ⟨Obj.num 0⟩

/-- Fault values.  Modelled from the spec and from `streams.rs`'s own use of
`NErr` (`core.rs` is not among the sources): `NErr::Break(None)` is the
distinguished graceful-termination fault; type and value errors carry a
message; `throwObj` stands for an arbitrary other user fault. -/
inductive NErr where
  | Break : Option Obj → NErr
  | typeError : String → NErr
  | valueError : String → NErr
  | throwObj : Obj → NErr
deriving DecidableEq

/-- Result type: Rust's `NRes<T> = Result<T, NErr>`. -/
abbrev NRes (α : Type) := Except NErr α

instance {ε α : Type} [DecidableEq ε] [DecidableEq α] : DecidableEq (Except ε α)
  | .ok x, .ok y =>
    match decEq x y with
    | .isTrue h => .isTrue (by rw [h])
    | .isFalse h => .isFalse (fun hh => h (Except.ok.inj hh))
  | .ok _, .error _ => .isFalse (fun h => Except.noConfusion h)
  | .error _, .ok _ => .isFalse (fun h => Except.noConfusion h)
  | .error x, .error y =>
    match decEq x y with
    | .isTrue h => .isTrue (by rw [h])
    | .isFalse h => .isFalse (fun hh => h (Except.error.inj hh))

/-- A generic fault used by counterexamples and witnesses (any non-`Break`
fault raised by a user callable). -/
def boomErr : NErr := NErr.throwObj (Obj.num 0)

/-- Pull `n` times from a stream whose `next` is the given state-transition
function, recording each pull's raw result (`none` = the iterator produced no
item on that pull). -/
def runPulls {σ : Type} (nextF : σ → Option (NRes Obj) × σ) : σ → Nat → List (Option (NRes Obj))
  | _, 0 => []
  | st, n + 1 => (nextF st).1 :: runPulls nextF (nextF st).2 n

/-- An inner stream given extensionally by the finite list of results it will
produce (used to instantiate the generic combinators in witnesses). -/
def listStep : List (NRes Obj) → Option (NRes Obj) × List (NRes Obj)
  | [] => (none, [])
  | x :: r => (some x, r)

/-- How a fueled run ended. -/
inductive RunEnd where
  | fuelOut : RunEnd
  | done : RunEnd
  | panicked : RunEnd
deriving DecidableEq

/-- Pull from a stream until it produces no item (fueled); collects the pulled
results in order. -/
def runToEnd {σ : Type} (nextF : σ → Option (NRes Obj) × σ) : Nat → σ → List (NRes Obj) × RunEnd
  | 0, _ => ([], .fuelOut)
  | n + 1, st =>
    match nextF st with
    | (none, _) => ([], .done)
    | (some r, st') =>
      let p := runToEnd nextF n st'
      (r :: p.1, p.2)

/-! ### Repeat (src/streams.rs lines 11-71) -/

/-- Sequences, as returned by `Repeat::pythonic_slice`:
`Seq::List(v)` is a materialized list; the only `Seq::Stream` that
`Repeat::pythonic_slice` ever builds is the repeat stream itself, so the
stream case carries just the repeated value. -/
inductive Seq where
  | List : List Obj → Seq
  | Stream : Obj → Seq
deriving DecidableEq

/-- Embedding of `Repeat::pythonic_slice` (src/streams.rs lines 39-67). -/
def Repeat.pythonicSlice (v : Obj) (lo hi : Option Int) : Seq :=
  let lo : Int :=
    match lo with
    | some x => if x < 0 then x - 1 else x
    | none => 0
  let hi : Int :=
    match hi with
    | some x => if x < 0 then x - 1 else x
    | none => -1
  if lo < 0 then
    if hi < 0 then Seq.List (List.replicate (max (hi - lo) 0).toNat v) else Seq.List []
  else
    if hi < 0 then Seq.Stream v else Seq.List (List.replicate (max (hi - lo) 0).toNat v)

/-- Spec-side restatement of the slicing rule, written from the claim's words
("negative bound `b` becomes `b-1`, absent lower bound becomes 0, absent upper
bound becomes -1; same side of zero: list of `v` repeated `max(0, hi-lo)`
times; lower negative and upper non-negative: empty list; lower non-negative
and upper negative: infinite repeat stream"), to be compared with the
source-side `Repeat.pythonicSlice`. -/
def repeatSliceSpec (v : Obj) (lo hi : Option Int) : Seq :=
  let nlo : Int :=
    match lo with
    | some x => if x < 0 then x - 1 else x
    | none => 0
  let nhi : Int :=
    match hi with
    | some x => if x < 0 then x - 1 else x
    | none => -1
  if (nlo < 0 ↔ nhi < 0) then Seq.List (List.replicate (max 0 (nhi - nlo)).toNat v)
  else if nlo < 0 then Seq.List []
  else Seq.Stream v

/-! ### Cycle (src/streams.rs lines 72-110)

The backing buffer is non-empty and the cursor lies in `[0, len)` for the
lifetime of the stream (construction-time invariant, comment at line 73).
Every pull of `Cycle` returns `Some(Ok(ret))`, so `Cycle.next` directly
returns the pulled value and the new state. -/

/-- Embedding of `Cycle::next` (src/streams.rs lines 75-82): return
`buffer[cursor]`, advance `cursor := (cursor+1) % len`.  (Indexing is total
via `getD`; under the invariant the cursor is in bounds.) -/
def Cycle.next (b : List Obj) (c : Nat) : Obj × (List Obj × Nat) :=
  (b.getD c default, (b, (c + 1) % b.length))

/-- Pull `k` items from a `Cycle`. -/
def Cycle.pulls (b : List Obj) (c : Nat) : Nat → List Obj
  | 0 => []
  | k + 1 => (Cycle.next b c).1 :: Cycle.pulls (Cycle.next b c).2.1 (Cycle.next b c).2.2 k

/-- Embedding of `Cycle::reversed` (src/streams.rs lines 103-109): a cycle
over the reversed buffer, with cursor `(len - cursor) % len`. -/
def Cycle.reversed (b : List Obj) (c : Nat) : List Obj × Nat :=
  (b.reverse, (b.length - c) % b.length)

/-! ### Range (src/streams.rs lines 111-166) -/

/-- Embedding of `Range::empty` (src/streams.rs lines 113-122): with no end
the range is never empty; with a declared end, a negative step is empty when
`start <= end`, a zero or positive step when `start >= end`. -/
def Range.empty (s : Int) (e : Option Int) (stp : Int) : Bool :=
  match e with
  | none => false
  | some e => if stp < 0 then decide (s ≤ e) else decide (e ≤ s)

/-- Embedding of `Range::next` (src/streams.rs lines 123-135): if empty, no
item; otherwise yield `start` and advance `start += step`. -/
def Range.next : Int × Option Int × Int → Option (NRes Obj) × (Int × Option Int × Int)
  | (s, e, stp) =>
    if Range.empty s e stp then (none, (s, e, stp))
    else (some (.ok (Obj.num s)), (s + stp, e, stp))

/-- Embedding of `Range::len` (src/streams.rs lines 144-165).  `to_usize()`
is modelled as `Int.toNat` (the argument is non-negative after the `max`;
usize overflow is not modelled, no claim depends on it). -/
def Range.len (s : Int) (e : Option Int) (stp : Int) : Option Nat :=
  match e with
  | none => none
  | some e =>
    if stp = 0 then (if s < e then none else some 0)
    else if stp < 0 then some ((max (e - s - stp + 1) 0 / (-stp)).toNat)
    else some ((max (e - s + stp - 1) 0 / stp).toNat)

/-! ### Iterate (src/streams.rs lines 448-500)

The state is `NRes<(Obj, Func, REnv)>`; the callable together with its
environment is modelled as a function `Obj → NRes Obj`. -/

/-- Embedding of `Iterate::next` (src/streams.rs lines 462-483).  In the live
state the current value is cloned as the pull's result before the callable
runs; a fault from the callable only replaces the state.  A stored
`Break(None)` ends iteration; any other stored fault is returned (and kept)
on every pull. -/
def Iterate.next : NRes (Obj × (Obj → NRes Obj)) → Option (NRes Obj) × NRes (Obj × (Obj → NRes Obj))
  | .ok (obj, f) =>
    match f obj with
    | .ok nxt => (some (.ok obj), .ok (nxt, f))
    | .error e => (some (.ok obj), .error e)
  | .error (NErr.Break none) => (none, .error (NErr.Break none))
  | .error e => (some (.error e), .error e)

/-- The callable `x -> x + 1` of the `Iterate(0, x -> x+1)` example (the
non-numeric case is never reached there). -/
def iterSuccF : Obj → NRes Obj
  | .num n => .ok (.num (n + 1))
  | o => .ok o

/-- A callable that signals graceful termination (`Break(None)`) on its third
invocation along the orbit of `0`: it is called successively with `0`, `1`,
`2`, and faults on `2`. -/
def iterBreak3F : Obj → NRes Obj
  | .num n => if 2 ≤ n then .error (NErr.Break none) else .ok (.num (n + 1))
  | o => .ok o

/-- A callable that raises a non-graceful fault on every invocation. -/
def iterBoomF : Obj → NRes Obj := fun _ => .error boomErr

/-! ### MappedStream (src/streams.rs lines 502-568)

The wrapped inner boxed stream is modelled generically: any state type `σ`
with a transition function `σ → Option (NRes Obj) × σ`. -/

/-- Embedding of `MappedStream::next` (src/streams.rs lines 525-547).  A
faulted state produces no further items (`self.0.as_mut().ok()?`); a fault
from the inner stream or the callable is returned once and stored; inner
exhaustion stores `Break(None)`. -/
def MappedStream.next {σ : Type} (step : σ → Option (NRes Obj) × σ) :
    NRes (σ × (Obj → NRes Obj)) → Option (NRes Obj) × NRes (σ × (Obj → NRes Obj))
  | .error e => (none, .error e)
  | .ok (inner, f) =>
    match step inner with
    | (some (.error e), _) => (some (.error e), .error e)
    | (some (.ok cur), inner') =>
      match f cur with
      | .ok nxt => (some (.ok nxt), .ok (inner', f))
      | .error e => (some (.error e), .error e)
    | (none, _) => (none, .error (NErr.Break none))

/-! ### StridedStream (src/streams.rs lines 569-635) -/

/-- Result of one `StridedStream` pull: either the Rust code panics
(`size % stride` with `stride == 0`), or it returns a pull result and the new
state. -/
inductive SOut (σ : Type) where
  | panicked : SOut σ
  | yield : Option (NRes Obj) → NRes (σ × Nat × Nat) → SOut σ

/-- The inner loop of `StridedStream::next` (src/streams.rs lines 594-612):
pull from the inner stream; propagate faults and exhaustion; keep an item when
`size % stride == 0` (this remainder is the unguarded division: with
`stride = 0` Rust panics); otherwise advance `size` and loop. -/
def stridedLoop {σ : Type} (step : σ → Option (NRes Obj) × σ) (stride : Nat) (st : σ)
    (size : Nat) : SOut σ :=
  match step st with
  | (some (.error e), _) => .yield (some (.error e)) (.error e)
  | (none, _) => .yield none (.error (NErr.Break none))
  | (some (.ok cur), st') =>
    if stride = 0 then .panicked
    else if size % stride = 0 then .yield (some (.ok cur)) (.ok (st', stride, size + 1))
    else stridedLoop step stride st' (size + 1)
termination_by (stride - size % stride) % stride
decreasing_by
  rename_i h0 h1
  have hs : 0 < stride := Nat.pos_of_ne_zero h0
  have hk : size % stride < stride := Nat.mod_lt _ hs
  have hk1 : 1 ≤ size % stride := Nat.one_le_iff_ne_zero.mpr h1
  have h2 : 2 ≤ stride := by omega
  have hmod : (size + 1) % stride = (size % stride + 1) % stride := by
    rw [Nat.add_mod, Nat.mod_eq_of_lt (show 1 < stride from h2)]
  rw [hmod]
  rcases Nat.lt_or_ge (size % stride + 1) stride with hlt | hge
  · rw [Nat.mod_eq_of_lt hlt, Nat.mod_eq_of_lt (show stride - (size % stride + 1) < stride by omega),
      Nat.mod_eq_of_lt (show stride - size % stride < stride by omega)]
    omega
  · have heq : size % stride + 1 = stride := by omega
    rw [heq, Nat.mod_self, Nat.sub_zero, Nat.mod_self,
      Nat.mod_eq_of_lt (show stride - size % stride < stride by omega)]
    omega

/-- Embedding of `StridedStream::next` (src/streams.rs lines 590-614): a
faulted state (including `Break(None)`) produces no further items; otherwise
run the skip loop. -/
def StridedStream.next {σ : Type} (step : σ → Option (NRes Obj) × σ) :
    NRes (σ × Nat × Nat) → SOut σ
  | .error e => .yield none (.error e)
  | .ok (st, stride, size) => stridedLoop step stride st size

/-! ### ScannedStream (src/streams.rs lines 637-711) -/

/-- Embedding of `ScannedStream::next` (src/streams.rs lines 659-689).  State:
the `NRes<(inner, init, func, renv)>` tuple plus the `Option<Obj>` accumulator
slot (`self.1`).  A faulted tuple produces no items; an empty accumulator slot
yields `init` and stores it; otherwise the next inner element is folded into
the accumulator. -/
def ScannedStream.next {σ : Type} (step : σ → Option (NRes Obj) × σ) :
    NRes (σ × Obj × (Obj → Obj → NRes Obj)) × Option Obj →
      Option (NRes Obj) × (NRes (σ × Obj × (Obj → Obj → NRes Obj)) × Option Obj)
  | (.error e, acc) => (none, (.error e, acc))
  | (.ok (inner, init, f), some acc) =>
    match step inner with
    | (some (.error e), _) => (some (.error e), (.error e, none))
    | (some (.ok cur), inner') =>
      match f acc cur with
      | .ok nxt => (some (.ok nxt), (.ok (inner', init, f), some nxt))
      | .error e => (some (.error e), (.error e, none))
    | (none, _) => (none, (.error (NErr.Break none), none))
  | (.ok (inner, init, f), none) => (some (.ok init), (.ok (inner, init, f), some init))

/-! ### HeapStream (src/streams.rs lines 713-767) -/

/-- Partial comparison of values.  Modelled from the spec (`core.rs` is not
among the sources): "comparison may be undefined between incompatible
variants".  Only numeric comparison is exercised by the claims; all other
pairs are modelled as incomparable. -/
def objCmpOpt : Obj → Obj → Option Ordering
  | .num a, .num b => some (compare a b)
  | _, _ => none

/-- Embedding of `TotalOrderWrapper`'s `Ord::cmp` (src/streams.rs lines
718-730): partial comparison with fallback `Equal` for incomparable pairs. -/
def twCmp (a b : Obj) : Ordering :=
  match objCmpOpt a b with
  | some o => o
  | none => .eq

/-- Model of `BinaryHeap::pop`: remove and return a greatest element under
`twCmp` (the heap is modelled as the list of its elements; Rust leaves the
order among `twCmp`-equal elements unspecified, the model keeps the first
maximal one). -/
def heapPopMax : List Obj → Option (Obj × List Obj)
  | [] => none
  | x :: xs =>
    let m := xs.foldl (fun a b => if twCmp a b = .lt then b else a) x
    some (m, (x :: xs).erase m)

mutual

def reprObj : Obj → String
  | .num n => toString n
  | .list l => "[" ++ reprObjList l ++ "]"

def reprObjList : List Obj → String
  | [] => ""
  | [x] => reprObj x
  | x :: xs => reprObj x ++ ", " ++ reprObjList xs

end

/-- The type-mismatch message of `HeapStream::next` (the embedded rendering of
the offending value stands in for Rust's debug formatting). -/
def heapTypeMsg (ret : Obj) : String :=
  "HeapStream func must return lists. Got " ++ reprObj ret

/-- Embedding of `HeapStream::next` (src/streams.rs lines 743-757).  A faulted
state produces no items; an empty heap produces no item (state kept); a fault
from the callable is swallowed by `.ok()?` (no item, popped element lost,
state stays live); a list result is pushed element-wise onto the heap and the
returned list itself is the pull's result; a non-list result is a type error
(state stays live, popped element lost). -/
def HeapStream.next :
    NRes (List Obj × (Obj → NRes Obj)) → Option (NRes Obj) × NRes (List Obj × (Obj → NRes Obj))
  | .error e => (none, .error e)
  | .ok (heap, f) =>
    match heapPopMax heap with
    | none => (none, .ok (heap, f))
    | some (top, rest) =>
      match f top with
      | .error _ => (none, .ok (rest, f))
      | .ok ret =>
        match ret with
        | .list vs => (some (.ok ret), .ok (rest ++ vs, f))
        | other => (some (.error (NErr.typeError (heapTypeMsg other))), .ok (rest, f))

/-- Embedding of `HeapStream::new` (src/streams.rs lines 735-741): a heap
seeded with one value. -/
def HeapStream.new (o : Obj) (f : Obj → NRes Obj) : NRes (List Obj × (Obj → NRes Obj)) :=
  .ok ([o], f)

/-- The example callable `x -> if x > 0 { [x-1] } else { [] }` (non-numeric
inputs never occur in the example). -/
def heapExF : Obj → NRes Obj
  | .num n => .ok (.list (if 0 < n then [Obj.num (n - 1)] else []))
  | _ => .ok (.list [])

/-! ### Combinatorial enumerators: common run machinery

`Permutations` and `Subsequences` share the shape `(shared buffer,
Option<index-state>)`; `None` is the absorbing terminal state.  A pull either
finds the terminal state (no item), panics (only `Permutations` with an empty
index vector, see below), or yields the materialized current state together
with the successor state. -/

/-- Result of one pull of a combinatorial enumerator. -/
inductive CPull (σ : Type) where
  | done : CPull σ
  | panicked : CPull σ
  | yield : Obj → Option σ → CPull σ
deriving DecidableEq

/-- Run a combinatorial enumerator to exhaustion (fueled), collecting the
yielded items. -/
def cRun {σ : Type} (nextF : Option σ → CPull σ) : Nat → Option σ → List Obj × RunEnd
  | 0, _ => ([], .fuelOut)
  | n + 1, st =>
    match nextF st with
    | .done => ([], .done)
    | .panicked => ([], .panicked)
    | .yield o st' =>
      let p := cRun nextF n st'
      (o :: p.1, p.2)

/-! ### Permutations (src/streams.rs lines 168-250) -/

/-- One iteration of the scan in `Permutations::next` (src/streams.rs lines
179-193): an ascent `v[i] < v[i+1]` resets `up` to `(i, i+1)`; on a descent,
an existing `up = (inc, linc)` has `linc` bumped to `i+1` whenever
`v[i+1] > v[inc]`. -/
def permUpStep (v : List Nat) (up : Option (Nat × Nat)) (i : Nat) : Option (Nat × Nat) :=
  if v.getD i 0 < v.getD (i + 1) 0 then some (i, i + 1)
  else
    match up with
    | some (inc, linc) =>
      if v.getD inc 0 < v.getD (i + 1) 0 then some (inc, i + 1) else some (inc, linc)
    | none => none

/-- The scan `for i in 0..(v.len() - 1)` of `Permutations::next`; only
meaningful for non-empty `v` (for `v = []` the Rust range `0..(0usize - 1)`
panics, handled in `Permutations.next` below). -/
def permUp (v : List Nat) : Option (Nat × Nat) :=
  (List.range (v.length - 1)).foldl (permUpStep v) none

/-- The state update of `Permutations::next` (src/streams.rs lines 194-202):
no ascent clears the state; otherwise swap `inc`/`linc` and reverse the
suffix after `inc`. -/
def permSucc (v : List Nat) : Option (List Nat) :=
  match permUp v with
  | none => none
  | some (inc, linc) =>
    let w := (v.set inc (v.getD linc 0)).set linc (v.getD inc 0)
    some (w.take (inc + 1) ++ (w.drop (inc + 1)).reverse)

/-- Materialization of the current index vector (src/streams.rs line 175):
`Obj::list(v.iter().map(|i| self.0[*i].clone()).collect())`. -/
def permOutput (buffer : List Obj) (v : List Nat) : Obj :=
  Obj.list (v.map (fun i => buffer.getD i default))

/-- Embedding of `Permutations::next` (src/streams.rs lines 171-204).  With an
empty index vector the Rust loop bound `0..(v.len() - 1)` underflows and the
iteration panics (debug: overflow on `0usize - 1`; release: wrapped range and
`v[0]` out of bounds), before anything is yielded. -/
def Permutations.next (buffer : List Obj) : Option (List Nat) → CPull (List Nat)
  | none => .done
  | some v => if v.length = 0 then .panicked else .yield (permOutput buffer v) (permSucc v)

/-- Embedding of `Permutations::len` (src/streams.rs lines 225-249): the fold
carries `cur` (running factorial) and the accumulated sum; the result is the
sum plus one. -/
def permLenFold (v : List Nat) : Nat :=
  ((List.range' 1 (v.length - 1)).foldl
    (fun p i =>
      (p.1 * i,
        p.2 + p.1 * i *
          ((List.range' (v.length - i) i).countP
            (fun j => decide (v.getD (v.length - 1 - i) 0 < v.getD j 0)))))
    (1, 0)).2 + 1

/-- Embedding of `Permutations`' `Stream::len`. -/
def Permutations.len : Option (List Nat) → Option Nat
  | none => some 0
  | some v => some (permLenFold v)

/-- The state transition a pull applies to the `Option<index-state>`. -/
def permStep (st : Option (List Nat)) : Option (List Nat) :=
  st.bind permSucc

/-- The sequence of index vectors visited by successive pulls (fueled). -/
def permVecTrace : Nat → Option (List Nat) → List (List Nat)
  | 0, _ => []
  | _ + 1, none => []
  | n + 1, some v => v :: permVecTrace n (permSucc v)

/-- Boolean strict lexicographic order on index vectors. -/
def lexLtb : List Nat → List Nat → Bool
  | _, [] => false
  | [], _ :: _ => true
  | a :: as, b :: bs => a < b || (a == b && lexLtb as bs)

/-- Closed form equal to `permLenFold v - 1` (proved below): summing, for each
position from the left, the count of later larger entries weighted by the
factorial of the number of later positions. -/
def permRankAux : List Nat → Nat
  | [] => 0
  | a :: rest => (rest.countP (fun x => decide (a < x))) * Nat.factorial rest.length + permRankAux rest

/-- The accumulated sum computed by the fold in `Permutations::len`:
`sumFact h m = Σ_{i=1}^{m} i! * h i`. -/
def sumFact (h : Nat → Nat) : Nat → Nat
  | 0 => 0
  | m + 1 => sumFact h m + Nat.factorial (m + 1) * h (m + 1)

/-! ### Subsequences (src/streams.rs lines 314-384) -/

/-- Materialization of the current mask (src/streams.rs lines 321-326): keep
exactly the buffer elements whose mask bit is true, in order. -/
def subseqOutput (buffer : List Obj) (v : List Bool) : Obj :=
  Obj.list ((v.zip buffer).filterMap (fun p => if p.1 then some p.2 else none))

/-- The loop of `Subsequences::next` (src/streams.rs lines 328-338), expressed
on the reversed mask (the loop scans from the right): each leading `true` is
cleared and the scan continues; the first `false` is set and the scan stops;
running off the end means no `false` bit exists (terminal). -/
def subseqSuccAux : List Bool → Option (List Bool)
  | [] => none
  | false :: rest => some (true :: rest)
  | true :: rest =>
    match subseqSuccAux rest with
    | none => none
    | some r => some (false :: r)

/-- The state update of `Subsequences::next`: scan from the right as above. -/
def subseqSucc (v : List Bool) : Option (List Bool) :=
  (subseqSuccAux v.reverse).map (fun r => r.reverse)

/-- Embedding of `Subsequences::next` (src/streams.rs lines 317-339). -/
def Subsequences.next (buffer : List Obj) : Option (List Bool) → CPull (List Bool)
  | none => .done
  | some v => .yield (subseqOutput buffer v) (subseqSucc v)

/-- Embedding of `Subsequences::len` (src/streams.rs lines 356-384): fold over
`(0..n).rev()` carrying `cur` (running power of two) and the sum; a `false`
bit at position `i` contributes the current `cur`. -/
def subseqLenFold (v : List Bool) : Nat :=
  (((List.range v.length).reverse).foldl
    (fun p i => (p.1 * 2, p.2 + if v.getD i false then 0 else p.1))
    (1, 0)).2 + 1

/-- Embedding of `Subsequences`' `Stream::len`. -/
def Subsequences.len : Option (List Bool) → Option Nat
  | none => some 0
  | some v => some (subseqLenFold v)

/-- The state transition a pull applies to the mask state. -/
def subseqStep (st : Option (List Bool)) : Option (List Bool) :=
  st.bind subseqSucc

/-- The numeric value of a bit list read little-endian (first bit least
significant); the reversed mask of `Subsequences` is read this way, so the
mask itself is the big-endian number the spec describes. -/
def valLE : List Bool → Nat
  | [] => 0
  | b :: r => (if b then 1 else 0) + 2 * valLE r

/-! ## Theorems -/

/-- A stored fault other than `Break(None)` is returned and kept by
`Iterate::next`. -/
lemma iterate_next_error_ne (e : NErr) (he : e ≠ NErr.Break none) :
    Iterate.next (.error e) = (some (.error e), .error e) := by
  cases e with
  | Break o =>
    cases o with
    | none => exact absurd rfl he
    | some x => rfl
  | typeError s => rfl
  | valueError s => rfl
  | throwObj x => rfl

/-- C9: slicing `Repeat(v)` with optional signed bounds normalizes them
(negative bound `b` becomes `b-1`, absent lower bound becomes 0, absent upper
bound becomes -1 meaning open/infinite); both normalized bounds on the same
side of zero give a materialized list of `v` repeated `max(0, hi-lo)` times,
a negative lower with non-negative upper gives an empty list, and a
non-negative lower with negative upper gives the infinite repeat stream. -/
theorem c9_repeat_pythonic_slice (v : Obj) (lo hi : Option Int) :
    Repeat.pythonicSlice v lo hi = repeatSliceSpec v lo hi := by
  rcases lo with _ | x <;> rcases hi with _ | y <;>
    simp only [Repeat.pythonicSlice, repeatSliceSpec] <;>
    split_ifs <;>
    first
      | rfl
      | (exfalso; omega)
      | (simp [max_comm])

/-- C2 failing input: `Range(5, Some(0), -1)` is pulled to completion after
exactly five items (`5,4,3,2,1`), yet `Range::len` reports `Some(0)`: the
negative-step length formula does not count the pulls. -/
theorem c2_range_len_bug :
    runToEnd Range.next 6 (5, some 0, -1) =
      ([.ok (.num 5), .ok (.num 4), .ok (.num 3), .ok (.num 2), .ok (.num 1)], .done) ∧
    (runToEnd Range.next 6 (5, some 0, -1)).1.length = 5 ∧
    Range.len 5 (some 0) (-1) = some 0 ∧
    (5 : Nat) ≠ 0 := by
  decide

/-- C3 (amended): `Iterate(0, x -> x+1)` pulled 5 times yields `0,1,2,3,4`;
if the callable instead signals graceful termination on its third call,
exactly three items (`0,1,2`) are produced — the pull on which the callable
faults still yields its pre-advance value — and every later pull produces no
item. -/
theorem c3_iterate_amended :
    runPulls Iterate.next (.ok (Obj.num 0, iterSuccF)) 5 =
      [some (.ok (.num 0)), some (.ok (.num 1)), some (.ok (.num 2)), some (.ok (.num 3)),
        some (.ok (.num 4))] ∧
    runPulls Iterate.next (.ok (Obj.num 0, iterBreak3F)) 4 =
      [some (.ok (.num 0)), some (.ok (.num 1)), some (.ok (.num 2)), none] ∧
    (∀ k, runPulls Iterate.next (.error (NErr.Break none)) k = List.replicate k none) := by
  refine ⟨by decide, by decide, ?_⟩
  intro k
  induction k with
  | zero => rfl
  | succ n ih => simp [runPulls, Iterate.next, ih, List.replicate]

/-- C3 counterexample: with graceful termination on the callable's third
call, the code produces three items, not two. -/
theorem c3_counterexample :
    (runPulls Iterate.next (.ok (Obj.num 0, iterBreak3F)) 4).countP (fun r => r.isSome) = 3 ∧
    (3 : Nat) ≠ 2 := by
  decide

/-- C5 (amended): a fault from `f` poisons the `Iterate` stream, but the
offending pull still yields the pre-advance current value; a stored
non-graceful fault is then surfaced as the result of every subsequent pull
(replayed, iteration does not end), while the graceful-termination fault
instead makes every subsequent pull end iteration with no items. -/
theorem c5_iterate_fault_amended (f : Obj → NRes Obj) (o : Obj) (e : NErr)
    (hf : f o = .error e) :
    Iterate.next (.ok (o, f)) = (some (.ok o), .error e) ∧
    (e ≠ NErr.Break none →
      ∀ k, runPulls Iterate.next (.error e) k = List.replicate k (some (.error e))) ∧
    (e = NErr.Break none →
      ∀ k, runPulls Iterate.next (.error e) k = List.replicate k none) := by
  refine ⟨by simp [Iterate.next, hf], ?_, ?_⟩
  · intro he k
    induction k with
    | zero => rfl
    | succ n ih => simp [runPulls, iterate_next_error_ne e he, ih, List.replicate]
  · intro he k
    subst he
    induction k with
    | zero => rfl
    | succ n ih => simp [runPulls, Iterate.next, ih, List.replicate]

/-- C5 witness: the amended behavior at `Iterate(0, f)` for a callable that
always raises a non-graceful fault. -/
theorem c5_witness :
    Iterate.next (.ok (Obj.num 0, iterBoomF)) = (some (.ok (Obj.num 0)), .error boomErr) ∧
    (boomErr ≠ NErr.Break none →
      ∀ k, runPulls Iterate.next (.error boomErr) k = List.replicate k (some (.error boomErr))) ∧
    (boomErr = NErr.Break none →
      ∀ k, runPulls Iterate.next (.error boomErr) k = List.replicate k none) :=
  c5_iterate_fault_amended iterBoomF (Obj.num 0) boomErr rfl

/-- C5 counterexample: the offending pull (the first) yields `Ok(0)`, not the
fault; the fault appears from the second pull on and is repeated, so
subsequent pulls do not end iteration. -/
theorem c5_counterexample :
    runPulls Iterate.next (.ok (Obj.num 0, iterBoomF)) 3 =
      [some (.ok (.num 0)), some (.error boomErr), some (.error boomErr)] ∧
    some (Except.ok (Obj.num 0)) ≠ (some (.error boomErr) : Option (NRes Obj)) ∧
    (some (.error boomErr) : Option (NRes Obj)) ≠ none := by
  decide

/-- C1 (amended): each `HeapStream` pull pops the highest-priority element,
invokes the callable with it as the sole argument, pushes every element of
the returned list back onto the queue, and yields the returned list itself
(not the popped pre-expansion value) as the pull's result; seeded with `5`
and the callable `x -> if x>0 { [x-1] } else { [] }` it yields
`[4],[3],[2],[1],[0],[]` and then ends. -/
theorem c1_heapstream_amended :
    (∀ (heap : List Obj) (f : Obj → NRes Obj) (top : Obj) (rest vs : List Obj),
      heapPopMax heap = some (top, rest) → f top = .ok (Obj.list vs) →
      HeapStream.next (.ok (heap, f)) = (some (.ok (Obj.list vs)), .ok (rest ++ vs, f))) ∧
    runPulls HeapStream.next (HeapStream.new (Obj.num 5) heapExF) 7 =
      [some (.ok (.list [.num 4])), some (.ok (.list [.num 3])), some (.ok (.list [.num 2])),
        some (.ok (.list [.num 1])), some (.ok (.list [.num 0])), some (.ok (.list [])), none] := by
  constructor
  · intro heap f top rest vs hp hf
    simp [HeapStream.next, hp, hf]
  · decide

/-- C1 witness: one pull at a concrete heap and callable. -/
theorem c1_witness :
    HeapStream.next (.ok ([Obj.num 2, Obj.num 7], heapExF)) =
      (some (.ok (Obj.list [Obj.num 6])), .ok ([Obj.num 2] ++ [Obj.num 6], heapExF)) :=
  c1_heapstream_amended.1 [Obj.num 2, Obj.num 7] heapExF (Obj.num 7) [Obj.num 2] [Obj.num 6]
    (by decide) (by decide)

/-- C1 counterexample: the first pull of the example yields the returned list
`[4]`, not the popped value `5`. -/
theorem c1_counterexample :
    runPulls HeapStream.next (HeapStream.new (Obj.num 5) heapExF) 1 =
      [some (.ok (.list [.num 4]))] ∧
    some (Except.ok (Obj.list [Obj.num 4])) ≠ (some (.ok (.num 5)) : Option (NRes Obj)) := by
  decide

/-- The measure used by `stridedLoop` strictly decreases on the skip branch
(restated after the definition for reuse). -/
lemma strided_measure_lt (stride size : Nat) (h0 : ¬ stride = 0) (h1 : ¬ size % stride = 0) :
    (stride - (size + 1) % stride) % stride < (stride - size % stride) % stride := by
  have hs : 0 < stride := Nat.pos_of_ne_zero h0
  have hk : size % stride < stride := Nat.mod_lt _ hs
  have hk1 : 1 ≤ size % stride := Nat.one_le_iff_ne_zero.mpr h1
  have h2 : 2 ≤ stride := by omega
  have hmod : (size + 1) % stride = (size % stride + 1) % stride := by
    rw [Nat.add_mod, Nat.mod_eq_of_lt (show 1 < stride from h2)]
  rw [hmod]
  rcases Nat.lt_or_ge (size % stride + 1) stride with hlt | hge
  · rw [Nat.mod_eq_of_lt hlt, Nat.mod_eq_of_lt (show stride - (size % stride + 1) < stride by omega),
      Nat.mod_eq_of_lt (show stride - size % stride < stride by omega)]
    omega
  · have heq : size % stride + 1 = stride := by omega
    rw [heq, Nat.mod_self, Nat.sub_zero, Nat.mod_self,
      Nat.mod_eq_of_lt (show stride - size % stride < stride by omega)]
    omega

/-- Whenever the strided skip loop surfaces a fault, the state it stores is
exactly that fault (strong induction on the decreasing measure). -/
lemma stridedLoop_fault_stored {σ : Type} (step : σ → Option (NRes Obj) × σ) (stride : Nat) :
    ∀ (m : Nat) (st : σ) (size : Nat), (stride - size % stride) % stride ≤ m →
      ∀ (e : NErr) (r : NRes (σ × Nat × Nat)),
        stridedLoop step stride st size = SOut.yield (some (.error e)) r → r = .error e := by
  intro m
  induction m with
  | zero =>
    intro st size hm e r
    rw [stridedLoop]
    rcases hst : step st with ⟨o, st2⟩
    match o with
    | none =>
      intro h
      exact Option.noConfusion (SOut.yield.inj h).1
    | some (.error e2) =>
      intro h
      obtain ⟨h1, h2⟩ := SOut.yield.inj h
      have h4 : e2 = e := Except.error.inj (Option.some.inj h1)
      rw [← h2, h4]
    | some (.ok cur) =>
      by_cases h0 : stride = 0
      · subst h0
        intro h
        exact SOut.noConfusion h
      · simp only [h0, if_false]
        have hsz : size % stride = 0 := by
          by_contra hne
          have hk : size % stride < stride := Nat.mod_lt _ (Nat.pos_of_ne_zero h0)
          have : (stride - size % stride) % stride = stride - size % stride :=
            Nat.mod_eq_of_lt (by omega)
          omega
        simp only [hsz, if_pos rfl]
        intro h
        exact Except.noConfusion (Option.some.inj (SOut.yield.inj h).1)
  | succ n ih =>
    intro st size hm e r
    rw [stridedLoop]
    rcases hst : step st with ⟨o, st2⟩
    match o with
    | none =>
      intro h
      exact Option.noConfusion (SOut.yield.inj h).1
    | some (.error e2) =>
      intro h
      obtain ⟨h1, h2⟩ := SOut.yield.inj h
      have h4 : e2 = e := Except.error.inj (Option.some.inj h1)
      rw [← h2, h4]
    | some (.ok cur) =>
      by_cases h0 : stride = 0
      · subst h0
        intro h
        exact SOut.noConfusion h
      · simp only [h0, if_false]
        by_cases hsz : size % stride = 0
        · simp only [hsz, if_pos rfl]
          intro h
          exact Except.noConfusion (Option.some.inj (SOut.yield.inj h).1)
        · simp only [hsz, if_false]
          exact ih st2 (size + 1) (by
            have := strided_measure_lt stride size h0 hsz
            omega) e r

/-- C4 (amended): `Iterate` stores a non-graceful fault and replays it on
every future pull; `MappedStream`, `StridedStream` and `ScannedStream` store
the fault and surface it exactly once — at the pull that observes it — after
which every future pull yields no items (the stored fault is not replayed);
`HeapStream` does not poison itself at all: a fault from its callable is
swallowed (the pull yields no item, the popped element is lost, and future
pulls continue from the remaining queue). -/
theorem c4_poisoning_amended :
    (∀ (e : NErr), e ≠ NErr.Break none →
      Iterate.next (.error e) = (some (.error e), .error e)) ∧
    (∀ (σ : Type) (step : σ → Option (NRes Obj) × σ) (e : NErr),
      MappedStream.next step (.error e) = (none, .error e)) ∧
    (∀ (σ : Type) (step : σ → Option (NRes Obj) × σ) (e : NErr),
      StridedStream.next step (.error e) = .yield none (.error e)) ∧
    (∀ (σ : Type) (step : σ → Option (NRes Obj) × σ) (e : NErr) (acc : Option Obj),
      ScannedStream.next step (.error e, acc) = (none, (.error e, acc))) ∧
    (∀ (σ : Type) (step : σ → Option (NRes Obj) × σ) (st st' : σ) (f : Obj → NRes Obj)
        (e : NErr),
      step st = (some (.error e), st') →
      MappedStream.next step (.ok (st, f)) = (some (.error e), .error e)) ∧
    (∀ (σ : Type) (step : σ → Option (NRes Obj) × σ) (st st' : σ) (f : Obj → NRes Obj)
        (cur : Obj) (e : NErr),
      step st = (some (.ok cur), st') → f cur = .error e →
      MappedStream.next step (.ok (st, f)) = (some (.error e), .error e)) ∧
    (∀ (σ : Type) (step : σ → Option (NRes Obj) × σ) (st st' : σ) (e : NErr)
        (stride size : Nat),
      step st = (some (.error e), st') →
      StridedStream.next step (.ok (st, stride, size)) =
        .yield (some (.error e)) (.error e)) ∧
    (∀ (σ : Type) (step : σ → Option (NRes Obj) × σ) (st : σ) (stride size : Nat)
        (e : NErr) (r : NRes (σ × Nat × Nat)),
      StridedStream.next step (.ok (st, stride, size)) = .yield (some (.error e)) r →
      r = .error e) ∧
    (∀ (σ : Type) (step : σ → Option (NRes Obj) × σ) (st st' : σ) (init : Obj)
        (f : Obj → Obj → NRes Obj) (acc : Obj) (e : NErr),
      step st = (some (.error e), st') →
      ScannedStream.next step (.ok (st, init, f), some acc) =
        (some (.error e), (.error e, none))) ∧
    (∀ (σ : Type) (step : σ → Option (NRes Obj) × σ) (st st' : σ) (init : Obj)
        (f : Obj → Obj → NRes Obj) (acc cur : Obj) (e : NErr),
      step st = (some (.ok cur), st') → f acc cur = .error e →
      ScannedStream.next step (.ok (st, init, f), some acc) =
        (some (.error e), (.error e, none))) ∧
    (∀ (heap : List Obj) (f : Obj → NRes Obj) (top : Obj) (rest : List Obj) (e : NErr),
      heapPopMax heap = some (top, rest) → f top = .error e →
      HeapStream.next (.ok (heap, f)) = (none, .ok (rest, f))) := by
  refine ⟨fun e he => iterate_next_error_ne e he, fun σ step e => rfl, fun σ step e => rfl,
    fun σ step e acc => rfl, ?_, ?_, ?_, ?_, ?_, ?_, ?_⟩
  · intro σ step st st' f e hstep
    simp [MappedStream.next, hstep]
  · intro σ step st st' f cur e hstep hf
    simp [MappedStream.next, hstep, hf]
  · intro σ step st st' e stride size hstep
    show stridedLoop step stride st size = SOut.yield (some (.error e)) (.error e)
    rw [stridedLoop, hstep]
  · intro σ step st stride size e r hy
    exact stridedLoop_fault_stored step stride ((stride - size % stride) % stride) st size
      le_rfl e r hy
  · intro σ step st st' init f acc e hstep
    simp [ScannedStream.next, hstep]
  · intro σ step st st' init f acc cur e hstep hf
    simp [ScannedStream.next, hstep, hf]
  · intro heap f top rest e hp hf
    simp [HeapStream.next, hp, hf]

/-- C4 witness: the amended behaviors at concrete inputs — the Iterate replay,
the fault-observing pulls of Mapped (inner fault and callable fault), Strided
(inner fault) and Scanned (inner fault and callable fault), and HeapStream
swallowing a callable fault. -/
theorem c4_witness :
    Iterate.next (.error boomErr) = (some (.error boomErr), .error boomErr) ∧
    MappedStream.next listStep (.ok ([Except.error boomErr], iterBoomF)) =
      (some (.error boomErr), .error boomErr) ∧
    MappedStream.next listStep (.ok ([Except.ok (Obj.num 1)], iterBoomF)) =
      (some (.error boomErr), .error boomErr) ∧
    StridedStream.next listStep (.ok ([Except.error boomErr], 2, 0)) =
      .yield (some (.error boomErr)) (.error boomErr) ∧
    ScannedStream.next listStep
        (.ok ([Except.error boomErr], Obj.num 0, fun _ _ => Except.error boomErr),
          some (Obj.num 0)) =
      (some (.error boomErr), (.error boomErr, none)) ∧
    ScannedStream.next listStep
        (.ok ([Except.ok (Obj.num 1)], Obj.num 0, fun _ _ => Except.error boomErr),
          some (Obj.num 0)) =
      (some (.error boomErr), (.error boomErr, none)) ∧
    HeapStream.next (.ok ([Obj.num 3], iterBoomF)) = (none, .ok ([], iterBoomF)) :=
  ⟨c4_poisoning_amended.1 boomErr (by decide),
    c4_poisoning_amended.2.2.2.2.1 (List (NRes Obj)) listStep [Except.error boomErr] []
      iterBoomF boomErr rfl,
    c4_poisoning_amended.2.2.2.2.2.1 (List (NRes Obj)) listStep [Except.ok (Obj.num 1)] []
      iterBoomF (Obj.num 1) boomErr (by decide) rfl,
    c4_poisoning_amended.2.2.2.2.2.2.1 (List (NRes Obj)) listStep [Except.error boomErr] []
      boomErr 2 0 rfl,
    c4_poisoning_amended.2.2.2.2.2.2.2.2.1 (List (NRes Obj)) listStep [Except.error boomErr]
      [] (Obj.num 0) (fun _ _ => Except.error boomErr) (Obj.num 0) boomErr rfl,
    c4_poisoning_amended.2.2.2.2.2.2.2.2.2.1 (List (NRes Obj)) listStep
      [Except.ok (Obj.num 1)] [] (Obj.num 0) (fun _ _ => Except.error boomErr) (Obj.num 0)
      (Obj.num 1) boomErr (by decide) rfl,
    c4_poisoning_amended.2.2.2.2.2.2.2.2.2.2 [Obj.num 3] iterBoomF (Obj.num 3) [] boomErr
      (by decide) rfl⟩

/-- C4 counterexample: after a `MappedStream` surfaces a callable fault, the
next pull yields no item instead of replaying the stored fault. -/
theorem c4_counterexample :
    runPulls (MappedStream.next listStep) (.ok ([Except.ok (Obj.num 1)], iterBoomF)) 2 =
      [some (.error boomErr), none] ∧
    (none : Option (NRes Obj)) ≠ some (.error boomErr) := by
  decide

/-- With a positive stride, the skip loop never reaches the division-by-zero
branch (strong induction on the decreasing measure). -/
lemma stridedLoop_ne_panicked {σ : Type} (step : σ → Option (NRes Obj) × σ) (stride : Nat)
    (hs : 1 ≤ stride) :
    ∀ (m : Nat) (st : σ) (size : Nat), (stride - size % stride) % stride ≤ m →
      stridedLoop step stride st size ≠ .panicked := by
  intro m
  induction m with
  | zero =>
    intro st size hm
    rw [stridedLoop]
    rcases hst : step st with ⟨o, st2⟩
    match o with
    | none => exact fun h => SOut.noConfusion h
    | some (.error e) => exact fun h => SOut.noConfusion h
    | some (.ok cur) =>
      have h0 : ¬ stride = 0 := by omega
      simp only [h0, if_false]
      have hsz : size % stride = 0 := by
        by_contra hne
        have hk : size % stride < stride := Nat.mod_lt _ (by omega)
        have : (stride - size % stride) % stride = stride - size % stride :=
          Nat.mod_eq_of_lt (by omega)
        omega
      simp only [hsz, if_pos rfl]
      exact fun h => SOut.noConfusion h
  | succ n ih =>
    intro st size hm
    rw [stridedLoop]
    rcases hst : step st with ⟨o, st2⟩
    match o with
    | none => exact fun h => SOut.noConfusion h
    | some (.error e) => exact fun h => SOut.noConfusion h
    | some (.ok cur) =>
      have h0 : ¬ stride = 0 := by omega
      simp only [h0, if_false]
      by_cases hsz : size % stride = 0
      · simp only [hsz, if_pos rfl]
        exact fun h => SOut.noConfusion h
      · simp only [hsz, if_false]
        exact ih st2 (size + 1) (by
          have := strided_measure_lt stride size h0 hsz
          omega)

/-- C10: pulling from a `StridedStream` is total only when `stride >= 1`:
with `stride = 0`, as soon as the inner stream yields a value the keep test
`size % stride` divides by zero and the Rust code panics (a panic, not a
reported fault); with `stride >= 1` the panic branch is unreachable. -/
theorem c10_strided_zero_stride :
    (∀ (σ : Type) (step : σ → Option (NRes Obj) × σ) (st st' : σ) (x : Obj) (size : Nat),
      step st = (some (.ok x), st') →
      StridedStream.next step (.ok (st, 0, size)) = .panicked) ∧
    (∀ (σ : Type) (step : σ → Option (NRes Obj) × σ) (st : σ) (stride size : Nat),
      1 ≤ stride → StridedStream.next step (.ok (st, stride, size)) ≠ .panicked) := by
  constructor
  · intro σ step st st' x size h
    show stridedLoop step 0 st size = .panicked
    rw [stridedLoop, h]
    rfl
  · intro σ step st stride size hs
    exact stridedLoop_ne_panicked step stride hs _ st size le_rfl

/-- Pulling `k` items from a cycle reads the buffer at `(c + i) % len` for
`i = 0, …, k-1`. -/
lemma cycle_pulls_map (b : List Obj) :
    ∀ (k c : Nat), c < b.length →
      Cycle.pulls b c k = (List.range k).map (fun i => b.getD ((c + i) % b.length) default) := by
  intro k
  induction k with
  | zero => intro c hc; rfl
  | succ n ih =>
    intro c hc
    have hn : 0 < b.length := by omega
    rw [List.range_succ_eq_map, List.map_cons, List.map_map]
    show b.getD c default :: Cycle.pulls b ((c + 1) % b.length) n = _
    rw [ih ((c + 1) % b.length) (Nat.mod_lt _ hn)]
    congr 1
    · rw [Nat.add_zero, Nat.mod_eq_of_lt hc]
    · apply List.map_congr_left
      intro i hi
      simp only [Function.comp_apply]
      rw [Nat.mod_add_mod]
      congr 2
      omega

/-- The index identity behind cycle reversal: position `i` of the reversed
cycle mirrors position `n - 1 - i` of the original. -/
lemma cycle_rev_idx (n c i : Nat) (hc : c < n) (hi : i < n) :
    n - 1 - ((n - c) % n + i) % n = (c + (n - 1 - i)) % n := by
  rcases Nat.eq_zero_or_pos c with hc0 | hcpos
  · subst hc0
    rw [Nat.sub_zero, Nat.mod_self, Nat.zero_add, Nat.mod_eq_of_lt hi, Nat.zero_add,
      Nat.mod_eq_of_lt (by omega)]
  · have h1 : (n - c) % n = n - c := Nat.mod_eq_of_lt (by omega)
    rw [h1]
    rcases Nat.lt_or_ge i c with hic | hic
    · rw [Nat.mod_eq_of_lt (show n - c + i < n by omega),
        Nat.mod_eq_sub_mod (show n ≤ c + (n - 1 - i) by omega),
        Nat.mod_eq_of_lt (show c + (n - 1 - i) - n < n by omega)]
      omega
    · rw [Nat.mod_eq_sub_mod (show n ≤ n - c + i by omega),
        Nat.mod_eq_of_lt (show n - c + i - n < n by omega),
        Nat.mod_eq_of_lt (show c + (n - 1 - i) < n by omega)]
      omega

/-- C8: reversing `Cycle(B, c)` produces a cycle over the reversed buffer
with cursor `(len - c) % len`, and pulling `len(B)` items from the reversed
stream yields exactly the reverse of the `len(B)` items pulled from the
original starting at cursor `c`. -/
theorem c8_cycle_reversed (b : List Obj) (c : Nat) (hb : b ≠ []) (hc : c < b.length) :
    Cycle.reversed b c = (b.reverse, (b.length - c) % b.length) ∧
    Cycle.pulls (Cycle.reversed b c).1 (Cycle.reversed b c).2 b.length =
      (Cycle.pulls b c b.length).reverse := by
  have hn : 0 < b.length := List.length_pos.mpr hb
  refine ⟨rfl, ?_⟩
  show Cycle.pulls b.reverse ((b.length - c) % b.length) b.length = _
  have hrevlen : b.reverse.length = b.length := List.length_reverse b
  have hcrev : (b.length - c) % b.length < b.reverse.length := by
    rw [hrevlen]; exact Nat.mod_lt _ hn
  rw [cycle_pulls_map b.reverse b.length _ hcrev, cycle_pulls_map b b.length c hc]
  apply List.ext_getElem
  · simp
  · intro i h1 h2
    have hi : i < b.length := by simpa using h1
    rw [List.getElem_reverse]
    simp only [List.getElem_map, List.getElem_range, List.length_map, List.length_range]
    have hj : ((b.length - c) % b.length + i) % b.reverse.length < b.reverse.length := by
      rw [hrevlen]; exact Nat.mod_lt _ hn
    rw [List.getD_eq_getElem b.reverse default hj, List.getElem_reverse]
    rw [List.getD_eq_getElem b default
      (show (c + (b.length - 1 - i)) % b.length < b.length from Nat.mod_lt _ hn)]
    congr 1
    rw [hrevlen]
    exact cycle_rev_idx b.length c i hc hi

/-- C8 witness: the reversal law at the concrete cycle over `[1,2,3]` with
cursor 1. -/
theorem c8_witness :
    Cycle.reversed [Obj.num 1, Obj.num 2, Obj.num 3] 1 =
      (([Obj.num 1, Obj.num 2, Obj.num 3] : List Obj).reverse,
        (([Obj.num 1, Obj.num 2, Obj.num 3] : List Obj).length - 1) %
          ([Obj.num 1, Obj.num 2, Obj.num 3] : List Obj).length) ∧
    Cycle.pulls (Cycle.reversed [Obj.num 1, Obj.num 2, Obj.num 3] 1).1
        (Cycle.reversed [Obj.num 1, Obj.num 2, Obj.num 3] 1).2
        ([Obj.num 1, Obj.num 2, Obj.num 3] : List Obj).length =
      (Cycle.pulls [Obj.num 1, Obj.num 2, Obj.num 3] 1
          ([Obj.num 1, Obj.num 2, Obj.num 3] : List Obj).length).reverse :=
  c8_cycle_reversed [Obj.num 1, Obj.num 2, Obj.num 3] 1 (by decide) (by decide)

/-- C10 witness: the two behaviors at a concrete one-element inner stream. -/
theorem c10_witness :
    StridedStream.next listStep (.ok (([Except.ok (Obj.num 1)] : List (NRes Obj)), 0, 0)) =
      .panicked ∧
    StridedStream.next listStep (.ok (([Except.ok (Obj.num 1)] : List (NRes Obj)), 1, 0)) ≠
      .panicked :=
  ⟨c10_strided_zero_stride.1 (List (NRes Obj)) listStep [Except.ok (Obj.num 1)] [] (Obj.num 1) 0
      rfl,
    c10_strided_zero_stride.2 (List (NRes Obj)) listStep [Except.ok (Obj.num 1)] 1 0
      (by decide)⟩

/-! ### Generic exhaustion machinery for the combinatorial enumerators

Both `Permutations` and `Subsequences` are state machines whose `len`
reports an exact remaining count; the following lemmas package the common
argument: given a successor function `succ`, an invariant `I` and a measure
`L` that the length formulas compute, a run from any state `v` performs
exactly `L v` pulls, and iterating the state transition tracks the measure. -/

lemma cRun_exhaust {σ : Type} (nextF : Option σ → CPull σ) (succ : σ → Option σ)
    (I : σ → Prop) (L : σ → Nat)
    (hdone : nextF none = CPull.done)
    (hyield : ∀ v, I v → ∃ o, nextF (some v) = CPull.yield o (succ v))
    (hpres : ∀ v u, I v → succ v = some u → I u)
    (hdec : ∀ v u, I v → succ v = some u → L u + 1 = L v)
    (hlast : ∀ v, I v → succ v = none → L v = 1) :
    ∀ (fuel : Nat) (v : σ), I v → L v < fuel →
      (cRun nextF fuel (some v)).2 = RunEnd.done ∧
      (cRun nextF fuel (some v)).1.length = L v := by
  intro fuel
  induction fuel with
  | zero => intro v hv hfuel; omega
  | succ m ih =>
    intro v hv hfuel
    obtain ⟨o, ho⟩ := hyield v hv
    rcases hsucc : succ v with _ | u
    · have hl : L v = 1 := hlast v hv hsucc
      rw [hsucc] at ho
      obtain ⟨m', rfl⟩ : ∃ m', m = m' + 1 := ⟨m - 1, by omega⟩
      simp [cRun, ho, hdone, hl]
    · have hIu := hpres v u hv hsucc
      have hLu := hdec v u hv hsucc
      have hu := ih u hIu (by omega)
      rw [hsucc] at ho
      simp only [cRun, ho]
      refine ⟨hu.1, ?_⟩
      simp only [List.length_cons, hu.2]
      omega

lemma step_iterate_some {σ : Type} (succ : σ → Option σ) (I : σ → Prop) (L : σ → Nat)
    (hpres : ∀ v u, I v → succ v = some u → I u)
    (hdec : ∀ v u, I v → succ v = some u → L u + 1 = L v)
    (hlast : ∀ v, I v → succ v = none → L v = 1) :
    ∀ (k : Nat) (v : σ), I v → k < L v →
      ∃ u, (fun st => Option.bind st succ)^[k] (some v) = some u ∧ I u ∧ L u = L v - k := by
  intro k
  induction k with
  | zero => intro v hv _; exact ⟨v, rfl, hv, by omega⟩
  | succ k ih =>
    intro v hv hk
    rw [Function.iterate_succ_apply]
    show ∃ u, (fun st => Option.bind st succ)^[k] (succ v) = _ ∧ _
    rcases hsucc : succ v with _ | u
    · have := hlast v hv hsucc
      omega
    · have hIu := hpres v u hv hsucc
      have hLu := hdec v u hv hsucc
      obtain ⟨w, hw, hIw, hLw⟩ := ih u hIu (by omega)
      exact ⟨w, hw, hIw, by omega⟩

lemma step_iterate_exhaust {σ : Type} (succ : σ → Option σ) (I : σ → Prop) (L : σ → Nat)
    (hpres : ∀ v u, I v → succ v = some u → I u)
    (hdec : ∀ v u, I v → succ v = some u → L u + 1 = L v)
    (hlast : ∀ v, I v → succ v = none → L v = 1) :
    ∀ (n : Nat) (v : σ), I v → L v = n →
      (fun st => Option.bind st succ)^[n] (some v) = none := by
  intro n
  induction n with
  | zero =>
    intro v hv h0
    rcases hsucc : succ v with _ | u
    · have := hlast v hv hsucc; omega
    · have := hdec v u hv hsucc; omega
  | succ m ih =>
    intro v hv hm
    rw [Function.iterate_succ_apply]
    show (fun st => Option.bind st succ)^[m] (succ v) = none
    rcases hsucc : succ v with _ | u
    · have h1 : L v = 1 := hlast v hv hsucc
      have hm0 : m = 0 := by omega
      subst hm0
      rfl
    · have hIu := hpres v u hv hsucc
      have hLu := hdec v u hv hsucc
      exact ih u hIu (by omega)

/-! ### Subsequences: the length formula tracks the remaining count -/

lemma valLE_lt (w : List Bool) : valLE w < 2 ^ w.length := by
  induction w with
  | nil => simp [valLE]
  | cons b r ih =>
    simp only [valLE, List.length_cons, pow_succ]
    cases b <;> simp <;> omega

lemma valLE_concat (w : List Bool) (b : Bool) :
    valLE (w ++ [b]) = valLE w + (if b then 1 else 0) * 2 ^ w.length := by
  induction w with
  | nil => cases b <;> simp [valLE]
  | cons a r ih =>
    have h1 : valLE ((a :: r) ++ [b]) = (if a then 1 else 0) + 2 * valLE (r ++ [b]) := rfl
    have h2 : valLE (a :: r) = (if a then 1 else 0) + 2 * valLE r := rfl
    rw [h1, ih, h2, List.length_cons, pow_succ]
    ring

lemma valLE_all_true (w : List Bool) (h : ∀ b ∈ w, b = true) :
    valLE w = 2 ^ w.length - 1 := by
  induction w with
  | nil => rfl
  | cons b r ih =>
    have hb : b = true := h b (by simp)
    have hr := ih (fun x hx => h x (by simp [hx]))
    have h2 : 1 ≤ 2 ^ r.length := Nat.one_le_two_pow
    subst hb
    have h3 : valLE (true :: r) = 1 + 2 * valLE r := by simp [valLE]
    rw [h3, List.length_cons, pow_succ]
    omega

lemma valLE_replicate_false (m : Nat) : valLE (List.replicate m false) = 0 := by
  induction m with
  | zero => rfl
  | succ k ih => simp [List.replicate, valLE, ih]

lemma subseqSuccAux_none (w : List Bool) (h : subseqSuccAux w = none) : ∀ b ∈ w, b = true := by
  induction w with
  | nil => simp
  | cons b r ih =>
    cases b with
    | false => simp [subseqSuccAux] at h
    | true =>
      rw [subseqSuccAux] at h
      intro x hx
      rcases List.mem_cons.mp hx with rfl | hx'
      · rfl
      · rcases haux : subseqSuccAux r with _ | r'
        · exact ih haux x hx'
        · rw [haux] at h; simp at h

lemma subseqSuccAux_some (w r : List Bool) (h : subseqSuccAux w = some r) :
    r.length = w.length ∧ valLE r = valLE w + 1 := by
  induction w generalizing r with
  | nil => simp [subseqSuccAux] at h
  | cons b w' ih =>
    cases b with
    | false =>
      rw [subseqSuccAux] at h
      obtain rfl : true :: w' = r := by simpa using h
      constructor
      · simp
      · have e1 : valLE (true :: w') = 1 + 2 * valLE w' := by simp [valLE]
        have e2 : valLE (false :: w') = 0 + 2 * valLE w' := by simp [valLE]
        rw [e1, e2]
        omega
    | true =>
      rw [subseqSuccAux] at h
      rcases haux : subseqSuccAux w' with _ | r'
      · rw [haux] at h
        simp at h
      · rw [haux] at h
        obtain rfl : false :: r' = r := by simpa using h
        obtain ⟨hlen, hval⟩ := ih r' haux
        constructor
        · simp [hlen]
        · have e1 : valLE (false :: r') = 0 + 2 * valLE r' := by simp [valLE]
          have e2 : valLE (true :: w') = 1 + 2 * valLE w' := by simp [valLE]
          rw [e1, e2, hval]
          omega

lemma subseq_idx_fold (w : List Bool) : ∀ (p : Nat × Nat),
    ((List.range w.reverse.length).reverse).foldl
      (fun q i => (q.1 * 2, q.2 + if w.reverse.getD i false then 0 else q.1)) p
    = w.foldl (fun q b => (q.1 * 2, q.2 + if b then 0 else q.1)) p := by
  induction w with
  | nil => intro p; rfl
  | cons b w' ih =>
    intro p
    simp only [List.reverse_cons, List.length_append, List.length_reverse,
      List.length_singleton, List.foldl_cons]
    rw [List.range_succ, List.reverse_append, List.reverse_singleton, List.singleton_append,
      List.foldl_cons]
    have hgd : (w'.reverse ++ [b]).getD w'.length false = b := by
      rw [List.getD_append_right _ _ _ _ (by simp)]
      simp
    rw [hgd]
    have ih' := ih (p.1 * 2, p.2 + if b then 0 else p.1)
    rw [List.length_reverse] at ih'
    rw [← ih']
    apply List.foldl_ext
    intro q i hi
    have hi' : i < w'.length := by
      have := List.mem_reverse.mp hi
      simpa using this
    have hgd2 : (w'.reverse ++ [b]).getD i false = w'.reverse.getD i false :=
      List.getD_append _ _ _ _ (by simpa using hi')
    rw [hgd2]

lemma subseq_val_fold (w : List Bool) :
    w.foldl (fun q b => (q.1 * 2, q.2 + if b then 0 else q.1)) (1, 0)
      = (2 ^ w.length, 2 ^ w.length - 1 - valLE w) := by
  induction w using List.reverseRecOn with
  | nil => rfl
  | append_singleton w b ih =>
    rw [List.foldl_append, ih, List.foldl_cons, List.foldl_nil, valLE_concat]
    have h1 := valLE_lt w
    have h2 : 1 ≤ 2 ^ w.length := Nat.one_le_two_pow
    simp only [List.length_append, List.length_singleton, pow_succ, Prod.mk.injEq]
    cases b <;> simp <;> omega

/-- The code's `Subsequences::len` fold computes `2^n` minus the big-endian
value of the mask. -/
lemma subseqLenFold_eq (v : List Bool) :
    subseqLenFold v = 2 ^ v.length - valLE v.reverse := by
  have h := subseq_idx_fold v.reverse (1, 0)
  rw [List.reverse_reverse] at h
  rw [subseqLenFold, h, subseq_val_fold]
  have h1 := valLE_lt v.reverse
  rw [List.length_reverse] at h1
  have h2 : 1 ≤ 2 ^ v.length := Nat.one_le_two_pow
  simp only [List.length_reverse]
  omega

lemma subseqSucc_none (v : List Bool) (h : subseqSucc v = none) :
    valLE v.reverse = 2 ^ v.length - 1 := by
  rw [subseqSucc] at h
  rcases haux : subseqSuccAux v.reverse with _ | r
  · have hall := subseqSuccAux_none v.reverse haux
    have := valLE_all_true v.reverse hall
    simpa using this
  · rw [haux] at h
    simp at h

lemma subseqSucc_some (v u : List Bool) (h : subseqSucc v = some u) :
    u.length = v.length ∧ valLE u.reverse = valLE v.reverse + 1 := by
  rw [subseqSucc] at h
  rcases haux : subseqSuccAux v.reverse with _ | r
  · rw [haux] at h
    simp at h
  · rw [haux] at h
    obtain rfl : r.reverse = u := by simpa using h
    obtain ⟨hlen, hval⟩ := subseqSuccAux_some v.reverse r haux
    constructor
    · simpa using hlen
    · rw [List.reverse_reverse]
      simpa using hval

lemma subseqLenFold_dec (v u : List Bool) (h : subseqSucc v = some u) :
    subseqLenFold u + 1 = subseqLenFold v := by
  obtain ⟨hlen, hval⟩ := subseqSucc_some v u h
  rw [subseqLenFold_eq, subseqLenFold_eq, hlen, hval]
  have h1 := valLE_lt u.reverse
  rw [List.length_reverse, hlen] at h1
  rw [hval] at h1
  omega

lemma subseqLenFold_last (v : List Bool) (h : subseqSucc v = none) :
    subseqLenFold v = 1 := by
  rw [subseqLenFold_eq, subseqSucc_none v h]
  have h2 : 1 ≤ 2 ^ v.length := Nat.one_le_two_pow
  omega

lemma subseqLenFold_start (n : Nat) : subseqLenFold (List.replicate n false) = 2 ^ n := by
  rw [subseqLenFold_eq, List.reverse_replicate, valLE_replicate_false, List.length_replicate]
  exact Nat.sub_zero _

/-- C7: `Subsequences(B)` started at the all-false mask and pulled to
exhaustion yields exactly `2^|B|` items; `len()` at the start equals
`2^|B|`, and after each pull `len()` equals the exact number of items
remaining. -/
theorem c7_subsequences (buffer : List Obj) :
    (cRun (Subsequences.next buffer) (2 ^ buffer.length + 1)
        (some (List.replicate buffer.length false))).2 = RunEnd.done ∧
    (cRun (Subsequences.next buffer) (2 ^ buffer.length + 1)
        (some (List.replicate buffer.length false))).1.length = 2 ^ buffer.length ∧
    Subsequences.len (some (List.replicate buffer.length false)) = some (2 ^ buffer.length) ∧
    (∀ k, k ≤ 2 ^ buffer.length →
      Subsequences.len (subseqStep^[k] (some (List.replicate buffer.length false))) =
        some (2 ^ buffer.length - k)) := by
  have hdone : Subsequences.next buffer none = CPull.done := rfl
  have hyield : ∀ v : List Bool, True →
      ∃ o, Subsequences.next buffer (some v) = CPull.yield o (subseqSucc v) :=
    fun v _ => ⟨subseqOutput buffer v, rfl⟩
  have hpres : ∀ (v u : List Bool), True → subseqSucc v = some u → True := fun _ _ _ _ => trivial
  have hdec : ∀ v u, True → subseqSucc v = some u → subseqLenFold u + 1 = subseqLenFold v :=
    fun v u _ h => subseqLenFold_dec v u h
  have hlast : ∀ v, True → subseqSucc v = none → subseqLenFold v = 1 :=
    fun v _ h => subseqLenFold_last v h
  have hstart := subseqLenFold_start buffer.length
  have hstep : subseqStep = (fun st => Option.bind st subseqSucc) := rfl
  have hrun := cRun_exhaust (Subsequences.next buffer) subseqSucc (fun _ => True) subseqLenFold
    hdone hyield hpres hdec hlast (2 ^ buffer.length + 1) (List.replicate buffer.length false)
    trivial (by omega)
  refine ⟨hrun.1, by rw [hrun.2, hstart], ?_, ?_⟩
  · show some (subseqLenFold (List.replicate buffer.length false)) = _
    rw [hstart]
  · intro k hk
    rcases Nat.lt_or_ge k (2 ^ buffer.length) with hlt | hge
    · obtain ⟨u, hu, _, hLu⟩ := step_iterate_some subseqSucc (fun _ => True) subseqLenFold
        hpres hdec hlast k (List.replicate buffer.length false) trivial (by omega)
      rw [hstep, hu]
      show some (subseqLenFold u) = _
      rw [hLu, hstart]
    · have hkeq : k = 2 ^ buffer.length := by omega
      subst hkeq
      have hnone := step_iterate_exhaust subseqSucc (fun _ => True) subseqLenFold hpres hdec
        hlast (2 ^ buffer.length) (List.replicate buffer.length false) trivial (by rw [hstart])
      rw [hstep, hnone]
      simp [Subsequences.len]

/-- C7 witness: the claim at the concrete two-element buffer, with the
after-pull hypothesis discharged at `k = 3`. -/
theorem c7_witness :
    (cRun (Subsequences.next [Obj.num 1, Obj.num 2]) 5 (some [false, false])).2 =
      RunEnd.done ∧
    (cRun (Subsequences.next [Obj.num 1, Obj.num 2]) 5 (some [false, false])).1.length = 4 ∧
    Subsequences.len (some [false, false]) = some 4 ∧
    Subsequences.len (subseqStep^[3] (some [false, false])) = some 1 :=
  ⟨(c7_subsequences [Obj.num 1, Obj.num 2]).1,
    (c7_subsequences [Obj.num 1, Obj.num 2]).2.1,
    (c7_subsequences [Obj.num 1, Obj.num 2]).2.2.1,
    (c7_subsequences [Obj.num 1, Obj.num 2]).2.2.2 3 (by decide)⟩

/-! ### Permutations, stage 1: the `len` fold equals a structural rank

`permLenFold v` is shown equal to `permRankAux v + 1`, where `permRankAux`
sums, over the positions from the left, the count of later larger entries
weighted by the factorial of the number of later positions. -/

lemma factFold (h : Nat → Nat) : ∀ m : Nat,
    (List.range' 1 m).foldl (fun p i => (p.1 * i, p.2 + p.1 * i * h i)) (1, 0)
      = (Nat.factorial m, sumFact h m) := by
  intro m
  induction m with
  | zero => rfl
  | succ k ih =>
    rw [List.range'_concat, show 1 + 1 * k = k + 1 from by omega, List.foldl_append, ih,
      List.foldl_cons, List.foldl_nil]
    refine Prod.ext ?_ ?_
    · show Nat.factorial k * (k + 1) = Nat.factorial (k + 1)
      rw [Nat.factorial_succ]
      ring
    · show sumFact h k + Nat.factorial k * (k + 1) * h (k + 1) = sumFact h (k + 1)
      rw [sumFact, Nat.factorial_succ]
      ring

lemma permLenFold_as_sumFact (v : List Nat) :
    permLenFold v = sumFact (fun i => (List.range' (v.length - i) i).countP
      (fun j => decide (v.getD (v.length - 1 - i) 0 < v.getD j 0))) (v.length - 1) + 1 := by
  exact congrArg (fun t => t + 1) (congrArg Prod.snd (factFold _ (v.length - 1)))

lemma sumFact_congr (h1 h2 : Nat → Nat) : ∀ m : Nat,
    (∀ i, 1 ≤ i → i ≤ m → h1 i = h2 i) → sumFact h1 m = sumFact h2 m := by
  intro m
  induction m with
  | zero => intro _; rfl
  | succ k ih =>
    intro hh
    rw [sumFact, sumFact, ih (fun i a b => hh i a (by omega)), hh (k + 1) (by omega) (le_refl _)]

lemma countP_range_getD (l : List Nat) (p : Nat → Bool) (d : Nat) :
    (List.range l.length).countP (fun j => p (l.getD j d)) = l.countP p := by
  induction l with
  | nil => rfl
  | cons a l ih =>
    rw [List.length_cons, List.range_succ_eq_map, List.countP_cons, List.countP_map]
    have h1 : ((fun j => p ((a :: l).getD j d)) ∘ Nat.succ) = (fun j => p (l.getD j d)) := by
      funext j
      simp [List.getD_cons_succ]
    rw [h1, ih, List.countP_cons]
    simp [List.getD_cons_zero]

lemma countP_range'_one (c : Nat) (rest : List Nat) :
    (List.range' 1 rest.length).countP
      (fun j => decide ((c :: rest).getD 0 0 < (c :: rest).getD j 0))
      = rest.countP (fun x => decide (c < x)) := by
  have hmap : List.range' 1 rest.length = (List.range rest.length).map (1 + ·) := by
    rw [List.range_eq_range', List.map_add_range' 1 0 rest.length 1]
  rw [hmap, List.countP_map]
  have h1 : ((fun j => decide ((c :: rest).getD 0 0 < (c :: rest).getD j 0)) ∘ (1 + ·))
      = (fun j => (fun x => decide (c < x)) (rest.getD j 0)) := by
    funext j
    simp only [Function.comp_apply, List.getD_cons_zero, Nat.add_comm 1 j, List.getD_cons_succ]
  rw [h1]
  exact countP_range_getD rest (fun x => decide (c < x)) 0

lemma permC_shift (c : Nat) (rest : List Nat) (i : Nat) (h1 : 1 ≤ i)
    (h2 : i ≤ rest.length - 1) (hrest : rest ≠ []) :
    (List.range' ((c :: rest).length - i) i).countP
      (fun j => decide ((c :: rest).getD ((c :: rest).length - 1 - i) 0 < (c :: rest).getD j 0))
    = (List.range' (rest.length - i) i).countP
      (fun j => decide (rest.getD (rest.length - 1 - i) 0 < rest.getD j 0)) := by
  have hm : 1 ≤ rest.length := List.length_pos.mpr hrest
  have e1 : (c :: rest).length - i = 1 + (rest.length - i) := by
    rw [List.length_cons]
    omega
  have hmap : List.range' ((c :: rest).length - i) i
      = (List.range' (rest.length - i) i).map (1 + ·) := by
    rw [e1, List.map_add_range' 1 (rest.length - i) i 1]
  rw [hmap, List.countP_map]
  have e2 : (c :: rest).length - 1 - i = (rest.length - 1 - i) + 1 := by
    rw [List.length_cons]
    omega
  have h3 : ((fun j => decide ((c :: rest).getD ((c :: rest).length - 1 - i) 0 <
        (c :: rest).getD j 0)) ∘ (1 + ·))
      = (fun j => decide (rest.getD (rest.length - 1 - i) 0 < rest.getD j 0)) := by
    funext j
    simp only [Function.comp_apply, e2, List.getD_cons_succ, Nat.add_comm 1 j]
  rw [h3]

/-- The fold in `Permutations::len` computes `permRankAux v + 1`. -/
lemma permLenFold_eq_rank (v : List Nat) : permLenFold v = permRankAux v + 1 := by
  induction v with
  | nil => rfl
  | cons c rest ih =>
    rw [permLenFold_as_sumFact]
    rcases eq_or_ne rest [] with hrest | hrest
    · subst hrest
      rfl
    · have hm : 1 ≤ rest.length := List.length_pos.mpr hrest
      have hlen : (c :: rest).length - 1 = (rest.length - 1) + 1 := by
        rw [List.length_cons]
        omega
      conv_lhs => arg 1; arg 2; rw [hlen]
      rw [sumFact]
      have hm1 : rest.length - 1 + 1 = rest.length := by omega
      rw [hm1]
      have hC : (List.range' ((c :: rest).length - rest.length) rest.length).countP
            (fun j => decide ((c :: rest).getD ((c :: rest).length - 1 - rest.length) 0 <
              (c :: rest).getD j 0))
          = rest.countP (fun x => decide (c < x)) := by
        have e1 : (c :: rest).length - rest.length = 1 := by
          rw [List.length_cons]
          omega
        have e2 : (c :: rest).length - 1 - rest.length = 0 := by
          rw [List.length_cons]
          omega
        rw [e1, e2]
        exact countP_range'_one c rest
      have hpreagree : sumFact (fun i => (List.range' ((c :: rest).length - i) i).countP
            (fun j => decide ((c :: rest).getD ((c :: rest).length - 1 - i) 0 <
              (c :: rest).getD j 0))) (rest.length - 1)
          = sumFact (fun i => (List.range' (rest.length - i) i).countP
            (fun j => decide (rest.getD (rest.length - 1 - i) 0 < rest.getD j 0)))
            (rest.length - 1) := by
        apply sumFact_congr
        intro i hi1 hi2
        exact permC_shift c rest i hi1 hi2 hrest
      rw [hpreagree, hC]
      rw [permLenFold_as_sumFact] at ih
      rw [permRankAux]
      have hcomm : rest.length.factorial * (rest.countP (fun x => decide (c < x)))
          = (rest.countP (fun x => decide (c < x))) * Nat.factorial rest.length :=
        Nat.mul_comm _ _
      omega

/-! ### Permutations, stage 2: rank values on sorted lists -/

lemma permRankAux_of_pairwise_gt (l : List Nat) (h : l.Pairwise (· > ·)) :
    permRankAux l = 0 := by
  induction l with
  | nil => rfl
  | cons a l ih =>
    rw [permRankAux]
    have h1 : l.countP (fun x => decide (a < x)) = 0 := by
      rw [List.countP_eq_zero]
      intro x hx
      have hxa : x < a := (List.pairwise_cons.mp h).1 x hx
      simp only [decide_eq_true_eq]
      omega
    rw [h1, ih (List.pairwise_cons.mp h).2]
    simp

lemma permRankAux_of_pairwise_lt (l : List Nat) (h : l.Pairwise (· < ·)) :
    permRankAux l = Nat.factorial l.length - 1 := by
  induction l with
  | nil => rfl
  | cons a l ih =>
    rw [permRankAux]
    have h1 : l.countP (fun x => decide (a < x)) = l.length := by
      rw [List.countP_eq_length]
      intro x hx
      simpa using (List.pairwise_cons.mp h).1 x hx
    rw [h1, ih (List.pairwise_cons.mp h).2]
    have hf : 1 ≤ Nat.factorial l.length := Nat.factorial_pos _
    rw [List.length_cons, Nat.factorial_succ]
    have hmul : (l.length + 1) * Nat.factorial l.length
        = l.length * Nat.factorial l.length + Nat.factorial l.length := by ring
    omega

lemma permRankAux_append_perm (l1 : List Nat) {l2 l2' : List Nat} (hp : l2.Perm l2') :
    permRankAux (l1 ++ l2) + permRankAux l2' = permRankAux (l1 ++ l2') + permRankAux l2 := by
  induction l1 with
  | nil => simp [Nat.add_comm]
  | cons c l1 ih =>
    rw [List.cons_append, List.cons_append, permRankAux, permRankAux]
    have hc : (l1 ++ l2).countP (fun x => decide (c < x))
        = (l1 ++ l2').countP (fun x => decide (c < x)) := by
      rw [List.countP_append, List.countP_append, hp.countP_eq]
    have hl : (l1 ++ l2).length = (l1 ++ l2').length := by
      simp [hp.length_eq]
    rw [hc, hl]
    omega

/-! ### Permutations, stage 3: the lexicographic order on index vectors -/

lemma lexLtb_irrefl (l : List Nat) : lexLtb l l = false := by
  induction l with
  | nil => rfl
  | cons a l ih => simp [lexLtb, ih]

lemma lexLtb_trans : ∀ (x y z : List Nat),
    lexLtb x y = true → lexLtb y z = true → lexLtb x z = true := by
  intro x
  induction x with
  | nil =>
    intro y z h1 h2
    cases y with
    | nil => cases z <;> simpa using h2
    | cons c ys =>
      cases z with
      | nil => simp [lexLtb] at h2
      | cons d zs => rfl
  | cons a xs ih =>
    intro y z h1 h2
    cases y with
    | nil => simp [lexLtb] at h1
    | cons c ys =>
      cases z with
      | nil => simp [lexLtb] at h2
      | cons d zs =>
        simp only [lexLtb, Bool.or_eq_true, Bool.and_eq_true, decide_eq_true_eq,
          beq_iff_eq] at h1 h2 ⊢
        rcases h1 with h1 | ⟨h1e, h1r⟩
        · rcases h2 with h2 | ⟨h2e, h2r⟩
          · exact Or.inl (by omega)
          · exact Or.inl (by omega)
        · rcases h2 with h2 | ⟨h2e, h2r⟩
          · exact Or.inl (by omega)
          · exact Or.inr ⟨by omega, ih ys zs h1r h2r⟩

lemma lexLtb_append (p : List Nat) (a b : Nat) (x y : List Nat) (h : a < b) :
    lexLtb (p ++ a :: x) (p ++ b :: y) = true := by
  induction p with
  | nil => simp [lexLtb, h]
  | cons c p ih => simp [lexLtb, ih]

/-! ### Permutations, stage 4: characterizing the `up` scan -/

lemma permUpStep_ascent (v : List Nat) (up : Option (Nat × Nat)) (i : Nat)
    (h : v.getD i 0 < v.getD (i + 1) 0) : permUpStep v up i = some (i, i + 1) := by
  rw [permUpStep.eq_def, if_pos h]

lemma permUpStep_none (v : List Nat) (i : Nat) (h : ¬ v.getD i 0 < v.getD (i + 1) 0) :
    permUpStep v none i = none := by
  rw [permUpStep.eq_def, if_neg h]

lemma permUpStep_upd (v : List Nat) (inc linc i : Nat)
    (h : ¬ v.getD i 0 < v.getD (i + 1) 0) (h2 : v.getD inc 0 < v.getD (i + 1) 0) :
    permUpStep v (some (inc, linc)) i = some (inc, i + 1) := by
  rw [permUpStep.eq_def, if_neg h]
  show (if v.getD inc 0 < v.getD (i + 1) 0 then some (inc, i + 1) else some (inc, linc)) = _
  rw [if_pos h2]

lemma permUpStep_keep (v : List Nat) (inc linc i : Nat)
    (h : ¬ v.getD i 0 < v.getD (i + 1) 0) (h2 : ¬ v.getD inc 0 < v.getD (i + 1) 0) :
    permUpStep v (some (inc, linc)) i = some (inc, linc) := by
  rw [permUpStep.eq_def, if_neg h]
  show (if v.getD inc 0 < v.getD (i + 1) 0 then some (inc, i + 1) else some (inc, linc)) = _
  rw [if_neg h2]

/-- Invariant of the scan in `Permutations::next` after processing the first
`m` pairs: either no ascent has been seen (state `none`), or the state is
`(inc, linc)` where `inc` is the last ascent among the first `m` pairs and
`linc` the largest index `≤ m` past `inc` holding a value above `v[inc]`. -/
lemma permUp_fold_char (v : List Nat) : ∀ m : Nat,
    ((List.range m).foldl (permUpStep v) none = none ∧
      ∀ k, k + 1 ≤ m → ¬ v.getD k 0 < v.getD (k + 1) 0)
    ∨ (∃ inc linc, (List.range m).foldl (permUpStep v) none = some (inc, linc) ∧
        inc + 1 ≤ m ∧ v.getD inc 0 < v.getD (inc + 1) 0 ∧
        (∀ k, inc < k → k + 1 ≤ m → ¬ v.getD k 0 < v.getD (k + 1) 0) ∧
        inc < linc ∧ linc ≤ m ∧ v.getD inc 0 < v.getD linc 0 ∧
        (∀ j, linc < j → j ≤ m → ¬ v.getD inc 0 < v.getD j 0)) := by
  intro m
  induction m with
  | zero =>
    left
    exact ⟨rfl, by intro k hk; omega⟩
  | succ m ih =>
    rw [List.range_succ, List.foldl_append, List.foldl_cons, List.foldl_nil]
    rcases ih with ⟨hnone, hno⟩ | ⟨inc, linc, hsome, hinc1, hascent, hlastasc, hil, hlm, hvil, hbig⟩
    · rw [hnone]
      by_cases hasc : v.getD m 0 < v.getD (m + 1) 0
      · right
        refine ⟨m, m + 1, permUpStep_ascent v none m hasc, by omega, hasc, ?_, by omega,
          by omega, hasc, ?_⟩
        · intro k h1 h2
          omega
        · intro j h1 h2
          omega
      · left
        refine ⟨permUpStep_none v m hasc, ?_⟩
        intro k hk
        rcases Nat.lt_or_ge (k + 1) (m + 1) with h | h
        · exact hno k (by omega)
        · have hkm : k = m := by omega
          subst hkm
          exact hasc
    · rw [hsome]
      by_cases hasc : v.getD m 0 < v.getD (m + 1) 0
      · right
        refine ⟨m, m + 1, permUpStep_ascent v (some (inc, linc)) m hasc, by omega, hasc, ?_,
          by omega, by omega, hasc, ?_⟩
        · intro k h1 h2
          omega
        · intro j h1 h2
          omega
      · right
        by_cases hupd : v.getD inc 0 < v.getD (m + 1) 0
        · refine ⟨inc, m + 1, permUpStep_upd v inc linc m hasc hupd, by omega, hascent, ?_,
            by omega, by omega, hupd, ?_⟩
          · intro k h1 h2
            rcases Nat.lt_or_ge (k + 1) (m + 1) with h | h
            · exact hlastasc k h1 (by omega)
            · have hkm : k = m := by omega
              subst hkm
              exact hasc
          · intro j h1 h2
            omega
        · refine ⟨inc, linc, permUpStep_keep v inc linc m hasc hupd, by omega, hascent, ?_,
            hil, by omega, hvil, ?_⟩
          · intro k h1 h2
            rcases Nat.lt_or_ge (k + 1) (m + 1) with h | h
            · exact hlastasc k h1 (by omega)
            · have hkm : k = m := by omega
              subst hkm
              exact hasc
          · intro j h1 h2
            rcases Nat.lt_or_ge j (m + 1) with h | h
            · exact hbig j h1 (by omega)
            · have hjm : j = m + 1 := by omega
              subst hjm
              exact hupd

/-! ### Permutations, stage 5: structural description of the successor -/

lemma set_at_append {α : Type} (l1 : List α) (x : α) (l2 : List α) (y : α) :
    (l1 ++ x :: l2).set l1.length y = l1 ++ y :: l2 := by
  induction l1 with
  | nil => rfl
  | cons c l1 ih => simp [List.set_cons_succ, ih]

/-- When the scan finds no ascent, the index vector is strictly descending
(for duplicate-free vectors). -/
lemma permSucc_none_pairwise (v : List Nat) (hnd : v.Nodup) (h : permSucc v = none) :
    v.Pairwise (· > ·) := by
  have hup : permUp v = none := by
    rcases hu2 : permUp v with _ | pr
    · rfl
    · rw [permSucc.eq_def, hu2] at h
      rcases pr with ⟨inc, linc⟩
      simp at h
  rcases permUp_fold_char v (v.length - 1) with ⟨hnone, hno⟩ | ⟨inc, linc, hsome, _⟩
  · have hch : List.Chain' (· > ·) v := by
      rw [List.chain'_iff_get]
      intro i hi
      simp only [List.get_eq_getElem]
      have hi1 : i + 1 < v.length := by omega
      have hne : v[i] ≠ v[i + 1] := by
        intro he
        have := hnd.getElem_inj_iff.mp he
        omega
      have hnlt : ¬ v.getD i 0 < v.getD (i + 1) 0 := hno i (by omega)
      rw [List.getD_eq_getElem v 0 (by omega), List.getD_eq_getElem v 0 hi1] at hnlt
      omega
    exact List.chain'_iff_pairwise.mp hch
  · have h2 : permUp v = some (inc, linc) := hsome
    rw [hup] at h2
    exact Option.noConfusion h2

/-- Structural description of one `Permutations::next` state update: the
vector splits as `p ++ a :: (s1 ++ b :: s2)` with the suffix after `a`
strictly descending, `b` the last suffix entry above `a`, and the successor
is `p ++ b :: (s2.reverse ++ a :: s1.reverse)`. -/
lemma permSucc_decomp (v u : List Nat) (hnd : v.Nodup) (h : permSucc v = some u) :
    ∃ p a s1 b s2,
      v = p ++ a :: (s1 ++ b :: s2) ∧
      u = p ++ b :: (s2.reverse ++ a :: s1.reverse) ∧
      a < b ∧ (∀ x ∈ s2, x < a) ∧ (s1 ++ b :: s2).Pairwise (· > ·) := by
  rcases hup : permUp v with _ | ⟨inc, linc⟩
  · rw [permSucc.eq_def, hup] at h
    simp at h
  · rw [permSucc.eq_def, hup] at h
    simp only [Option.some.injEq] at h
    have hu : u = ((v.set inc (v.getD linc 0)).set linc (v.getD inc 0)).take (inc + 1) ++
        (((v.set inc (v.getD linc 0)).set linc (v.getD inc 0)).drop (inc + 1)).reverse :=
      h.symm
    clear h
    rcases permUp_fold_char v (v.length - 1) with ⟨hnone, _⟩ |
      ⟨inc', linc', hsome, hinc1, hascent, hlastasc, hil, hlm, hvil, hbig⟩
    · have h2 : permUp v = none := hnone
      rw [hup] at h2
      exact Option.noConfusion h2
    · have h2 : permUp v = some (inc', linc') := hsome
      rw [hup] at h2
      obtain ⟨e1, e2⟩ := Prod.mk.inj (Option.some.inj h2)
      subst e1
      subst e2
      have hn1 : 1 ≤ v.length - 1 := by omega
      have hn2 : 2 ≤ v.length := by omega
      have hincn : inc + 1 < v.length := by omega
      have hlincn : linc < v.length := by omega
      have hgetD : ∀ (k : Nat) (hk : k < v.length), v.getD k 0 = v[k] := by
        intro k hk
        exact List.getD_eq_getElem v 0 hk
      set p := v.take inc with hp
      set s1 := (v.drop (inc + 1)).take (linc - (inc + 1)) with hs1
      set s2 := v.drop (linc + 1) with hs2def
      set a := v.getD inc 0 with ha
      set b := v.getD linc 0 with hb
      have hplen : p.length = inc := by
        rw [hp]
        exact List.length_take_of_le (by omega)
      have hs1len : s1.length = linc - inc - 1 := by
        rw [hs1, List.length_take_of_le]
        · omega
        · rw [List.length_drop]
          omega
      have t5 : v.drop linc = b :: s2 := by
        rw [hs2def, List.drop_eq_getElem_cons hlincn]
        rw [hb, hgetD linc hlincn]
      have t3 : v.drop (inc + 1) = s1 ++ b :: s2 := by
        have t4 : (v.drop (inc + 1)).take (linc - (inc + 1)) ++
            (v.drop (inc + 1)).drop (linc - (inc + 1)) = v.drop (inc + 1) :=
          List.take_append_drop _ _
        rw [← t4, List.drop_drop, show inc + 1 + (linc - (inc + 1)) = linc from by omega, t5,
          hs1]
      have hvdec : v = p ++ a :: (s1 ++ b :: s2) := by
        have t1 : v.take inc ++ v.drop inc = v := List.take_append_drop inc v
        have t2 : v.drop inc = a :: v.drop (inc + 1) := by
          rw [List.drop_eq_getElem_cons (show inc < v.length by omega)]
          rw [ha, hgetD inc (by omega)]
        rw [← t1, t2, t3, hp]
      have hw : (v.set inc b).set linc a = (p ++ b :: s1) ++ a :: s2 := by
        have w1 : v.set inc b = p ++ b :: (s1 ++ b :: s2) := by
          conv_lhs => rw [hvdec]
          rw [show inc = p.length from hplen.symm]
          exact set_at_append p a (s1 ++ b :: s2) b
        rw [w1, show p ++ b :: (s1 ++ b :: s2) = (p ++ b :: s1) ++ b :: s2 from by simp,
          show linc = (p ++ b :: s1).length from by simp [hplen, hs1len]; omega]
        exact set_at_append (p ++ b :: s1) b s2 a
      have hudec : u = p ++ b :: (s2.reverse ++ a :: s1.reverse) := by
        rw [hu, hw, show (p ++ b :: s1) ++ a :: s2 = (p ++ [b]) ++ (s1 ++ a :: s2) from by simp,
          show inc + 1 = (p ++ [b]).length from by simp [hplen],
          List.take_left, List.drop_left]
        simp [List.reverse_append]
      have hs2lt : ∀ x ∈ s2, x < a := by
        intro x hx
        rw [hs2def] at hx
        obtain ⟨i, hi, hxi⟩ := List.mem_iff_getElem.mp hx
        have hlen2 : i < v.length - (linc + 1) := by
          simpa [List.length_drop] using hi
        have hb2 : linc + 1 + i < v.length := by omega
        have hidx : (v.drop (linc + 1))[i] = v[linc + 1 + i] :=
          List.getElem_drop v
        have hji : ¬ v.getD inc 0 < v.getD (linc + 1 + i) 0 :=
          hbig (linc + 1 + i) (by omega) (by omega)
        rw [hgetD inc (by omega), hgetD (linc + 1 + i) hb2] at hji
        have hne : v[linc + 1 + i] ≠ v[inc] := by
          intro he
          have := hnd.getElem_inj_iff.mp he
          omega
        rw [← hxi, hidx, ha, hgetD inc (by omega)]
        omega
      have hpairS : (s1 ++ b :: s2).Pairwise (· > ·) := by
        rw [← t3]
        have hch : List.Chain' (· > ·) (v.drop (inc + 1)) := by
          rw [List.chain'_iff_get]
          intro i hi
          simp only [List.get_eq_getElem]
          have hlen3 : (v.drop (inc + 1)).length = v.length - (inc + 1) := by
            simp [List.length_drop]
          have hia : i < (v.drop (inc + 1)).length := by omega
          have hib : i + 1 < (v.drop (inc + 1)).length := by omega
          have hi2 : inc + 1 + i + 1 < v.length := by omega
          have hi3 : inc + 1 + (i + 1) < v.length := by omega
          have e1 : (v.drop (inc + 1))[i] = v[inc + 1 + i] :=
            List.getElem_drop v
          have e2 : (v.drop (inc + 1))[i + 1] = v[inc + 1 + (i + 1)] :=
            List.getElem_drop v
          rw [e1, e2]
          have hno2 : ¬ v.getD (inc + 1 + i) 0 < v.getD (inc + 1 + i + 1) 0 :=
            hlastasc (inc + 1 + i) (by omega) (by omega)
          rw [hgetD (inc + 1 + i) (by omega), hgetD (inc + 1 + i + 1) (by omega)] at hno2
          have hne2 : v[inc + 1 + i] ≠ v[inc + 1 + i + 1] := by
            intro he
            have := hnd.getElem_inj_iff.mp he
            omega
          have hidx3 : inc + 1 + (i + 1) = inc + 1 + i + 1 := by omega
          simp only [hidx3]
          omega
        exact List.chain'_iff_pairwise.mp hch
      exact ⟨p, a, s1, b, s2, hvdec, hudec, hvil, hs2lt, hpairS⟩

/-- One `Permutations::next` state update permutes the index vector, lowers
the `len` measure by exactly one, and increases the vector lexicographically. -/
lemma permSucc_main (v u : List Nat) (hnd : v.Nodup) (h : permSucc v = some u) :
    u.Perm v ∧ permLenFold u + 1 = permLenFold v ∧ lexLtb v u = true := by
  obtain ⟨p, a, s1, b, s2, hv, hu, hab, hs2, hpair⟩ := permSucc_decomp v u hnd h
  obtain ⟨hpair1, hpairB, hcross⟩ := List.pairwise_append.mp hpair
  obtain ⟨hbgt, hpair2⟩ := List.pairwise_cons.mp hpairB
  have hs1gtb : ∀ x ∈ s1, b < x := fun x hx => hcross x hx b (by simp)
  have hs1gta : ∀ x ∈ s1, a < x := fun x hx => lt_trans hab (hs1gtb x hx)
  have p1 : (s1 ++ b :: s2).Perm (b :: (s1 ++ s2)) := List.perm_middle
  have p2 : (s2.reverse ++ a :: s1.reverse).Perm (a :: (s2.reverse ++ s1.reverse)) :=
    List.perm_middle
  have p3 : (s2.reverse ++ s1.reverse).Perm (s1 ++ s2) :=
    ((List.reverse_perm s2).append (List.reverse_perm s1)).trans List.perm_append_comm
  have hperm : (a :: (s1 ++ b :: s2)).Perm (b :: (s2.reverse ++ a :: s1.reverse)) := by
    have q1 : (a :: (s1 ++ b :: s2)).Perm (a :: b :: (s1 ++ s2)) := p1.cons a
    have q2 : (a :: b :: (s1 ++ s2)).Perm (b :: a :: (s1 ++ s2)) :=
      List.Perm.swap b a (s1 ++ s2)
    have q4 : (b :: (s2.reverse ++ a :: s1.reverse)).Perm
        (b :: a :: (s2.reverse ++ s1.reverse)) := p2.cons b
    exact q1.trans (q2.trans (((p3.symm.cons a).cons b).trans q4.symm))
  have hpermU : u.Perm v := by
    rw [hv, hu]
    exact (hperm.symm).append_left p
  have hcntS : (s1 ++ b :: s2).countP (fun x => decide (a < x)) = s1.length + 1 := by
    rw [List.countP_append, List.countP_cons]
    have c1 : s1.countP (fun x => decide (a < x)) = s1.length :=
      List.countP_eq_length.mpr (fun x hx => by simpa using hs1gta x hx)
    have c2 : s2.countP (fun x => decide (a < x)) = 0 :=
      List.countP_eq_zero.mpr (fun x hx => by
        have := hs2 x hx
        simp only [decide_eq_true_eq]
        omega)
    simp [c1, c2, hab]
  have hcntT : (s2.reverse ++ a :: s1.reverse).countP (fun x => decide (b < x))
      = s1.length := by
    rw [List.countP_append, List.countP_cons]
    have c1 : s2.reverse.countP (fun x => decide (b < x)) = 0 :=
      List.countP_eq_zero.mpr (fun x hx => by
        have := hs2 x (List.mem_reverse.mp hx)
        simp only [decide_eq_true_eq]
        omega)
    have c2 : s1.reverse.countP (fun x => decide (b < x)) = s1.reverse.length :=
      List.countP_eq_length.mpr (fun x hx => by
        simpa using hs1gtb x (List.mem_reverse.mp hx))
    simp [c1, c2]
    omega
  have hpairT : (s2.reverse ++ a :: s1.reverse).Pairwise (· < ·) := by
    rw [List.pairwise_append]
    refine ⟨(List.pairwise_reverse).mpr (hpair2.imp (fun h => h)), ?_, ?_⟩
    · rw [List.pairwise_cons]
      exact ⟨fun y hy => hs1gta y (List.mem_reverse.mp hy),
        (List.pairwise_reverse).mpr (hpair1.imp (fun h => h))⟩
    · intro x hx y hy
      have hxa : x < a := hs2 x (List.mem_reverse.mp hx)
      rcases List.mem_cons.mp hy with rfl | hy2
      · exact hxa
      · exact lt_trans hxa (hs1gta y (List.mem_reverse.mp hy2))
  have hRs : permRankAux (a :: (s1 ++ b :: s2))
      = (s1.length + 1) * Nat.factorial (s1 ++ b :: s2).length := by
    rw [permRankAux, hcntS, permRankAux_of_pairwise_gt _ hpair]
    omega
  have hRt : permRankAux (b :: (s2.reverse ++ a :: s1.reverse))
      = s1.length * Nat.factorial (s2.reverse ++ a :: s1.reverse).length
        + (Nat.factorial (s2.reverse ++ a :: s1.reverse).length - 1) := by
    rw [permRankAux, hcntT, permRankAux_of_pairwise_lt _ hpairT]
  have hlenEq : (s2.reverse ++ a :: s1.reverse).length = (s1 ++ b :: s2).length := by
    simp
    omega
  have hcong := permRankAux_append_perm p hperm
  have hfpos : 1 ≤ Nat.factorial (s1 ++ b :: s2).length := Nat.factorial_pos _
  have hmul : (s1.length + 1) * Nat.factorial (s1 ++ b :: s2).length
      = s1.length * Nat.factorial (s1 ++ b :: s2).length
        + Nat.factorial (s1 ++ b :: s2).length := by ring
  refine ⟨hpermU, ?_, ?_⟩
  · rw [permLenFold_eq_rank, permLenFold_eq_rank, hv, hu]
    rw [hlenEq] at hRt
    omega
  · rw [hv, hu]
    exact lexLtb_append p a b _ _ hab

lemma permSucc_none_len (v : List Nat) (hnd : v.Nodup) (h : permSucc v = none) :
    permLenFold v = 1 := by
  rw [permLenFold_eq_rank, permRankAux_of_pairwise_gt v (permSucc_none_pairwise v hnd h)]

lemma permLenFold_range (n : Nat) : permLenFold (List.range n) = Nat.factorial n := by
  rw [permLenFold_eq_rank, permRankAux_of_pairwise_lt _ (List.pairwise_lt_range n),
    List.length_range]
  have := Nat.factorial_pos n
  omega

/-! ### Permutations, stage 6: run and trace lemmas -/

lemma perm_next_some (buffer : List Obj) (v : List Nat) (h : ¬ v.length = 0) :
    Permutations.next buffer (some v) = CPull.yield (permOutput buffer v) (permSucc v) := by
  show (if v.length = 0 then CPull.panicked
    else CPull.yield (permOutput buffer v) (permSucc v)) = _
  rw [if_neg h]

lemma cRun_none_nil {σ : Type} (nextF : Option σ → CPull σ) (hdone : nextF none = CPull.done) :
    ∀ m, (cRun nextF m none).1 = [] := by
  intro m
  cases m with
  | zero => rfl
  | succ m' => simp [cRun, hdone]

lemma permVecTrace_none : ∀ m, permVecTrace m none = [] := by
  intro m
  cases m <;> rfl

lemma chain_lex_all (a : List Nat) : ∀ (l : List (List Nat)),
    List.Chain (fun x y => lexLtb x y = true) a l → ∀ x ∈ l, lexLtb a x = true := by
  intro l
  induction l generalizing a with
  | nil =>
    intro _ x hx
    simp at hx
  | cons b l ih =>
    intro hch x hx
    rw [List.chain_cons] at hch
    rcases List.mem_cons.mp hx with rfl | hx2
    · exact hch.1
    · exact lexLtb_trans a b x hch.1 (ih b hch.2 x hx2)

lemma pairwise_of_chain_lex : ∀ (l : List (List Nat)),
    List.Chain' (fun x y => lexLtb x y = true) l →
    List.Pairwise (fun x y => lexLtb x y = true) l := by
  intro l
  induction l with
  | nil => intro _; exact List.Pairwise.nil
  | cons a l ih =>
    intro hch
    have hc : List.Chain (fun x y => lexLtb x y = true) a l := hch
    exact List.pairwise_cons.mpr ⟨chain_lex_all a l hc, ih hch.tail⟩

lemma map_getD_range (buffer : List Obj) :
    (List.range buffer.length).map (fun i => buffer.getD i default) = buffer := by
  apply List.ext_getElem (by simp)
  intro i h1 h2
  simp only [List.getElem_map, List.getElem_range]
  exact List.getD_eq_getElem buffer default h2

lemma permOutput_inj_on (buffer : List Obj) (hnd : buffer.Nodup) (x y : List Nat)
    (hx : ∀ i ∈ x, i < buffer.length) (hy : ∀ i ∈ y, i < buffer.length)
    (hlen : x.length = y.length) (hne : x ≠ y) :
    permOutput buffer x ≠ permOutput buffer y := by
  intro he
  apply hne
  have hmap : x.map (fun i => buffer.getD i default)
      = y.map (fun i => buffer.getD i default) := Obj.list.inj he
  apply List.ext_getElem hlen
  intro i h1 h2
  have h1m : i < (x.map (fun i => buffer.getD i default)).length := by
    simpa using h1
  have h2m : i < (y.map (fun i => buffer.getD i default)).length := by
    simpa using h2
  have he2 : (x.map (fun i => buffer.getD i default)).getD i default =
      (y.map (fun i => buffer.getD i default)).getD i default := by
    rw [hmap]
  rw [List.getD_eq_getElem _ _ h1m, List.getD_eq_getElem _ _ h2m] at he2
  simp only [List.getElem_map] at he2
  have hxb : x[i] < buffer.length := hx _ (List.getElem_mem h1)
  have hyb : y[i] < buffer.length := hy _ (List.getElem_mem h2)
  rw [List.getD_eq_getElem buffer default hxb, List.getD_eq_getElem buffer default hyb] at he2
  exact hnd.getElem_inj_iff.mp he2

/-- Combined run/trace facts for `Permutations`: the run's items are the
outputs of the visited index vectors, every visited vector is a permutation
of `range n`, and the visited vectors are lexicographically increasing. -/
lemma permVecTrace_props (buffer : List Obj) (n : Nat) (hn : 1 ≤ n) :
    ∀ (fuel : Nat) (v : List Nat), v.Perm (List.range n) →
      (cRun (Permutations.next buffer) fuel (some v)).1
        = (permVecTrace fuel (some v)).map (permOutput buffer) ∧
      (∀ w ∈ permVecTrace fuel (some v), w.Perm (List.range n)) ∧
      List.Chain' (fun x y => lexLtb x y = true) (permVecTrace fuel (some v)) := by
  intro fuel
  induction fuel with
  | zero =>
    intro v hv
    exact ⟨rfl, by simp [permVecTrace], by simp [permVecTrace]⟩
  | succ m ih =>
    intro v hv
    have hnodup : v.Nodup := (hv.nodup_iff).mpr (List.nodup_range n)
    have hlen : v.length = n := hv.length_eq.trans (List.length_range n)
    have hnext := perm_next_some buffer v (by omega)
    have hdone : Permutations.next buffer none = CPull.done := rfl
    rcases hsucc : permSucc v with _ | u
    · refine ⟨?_, ?_, ?_⟩
      · simp [cRun, hnext, hsucc, permVecTrace, permVecTrace_none, cRun_none_nil _ hdone]
      · intro w hw
        rw [show permVecTrace (m + 1) (some v) = v :: permVecTrace m (permSucc v) from rfl,
          hsucc, permVecTrace_none] at hw
        rcases List.mem_cons.mp hw with rfl | hw2
        · exact hv
        · simp at hw2
      · rw [show permVecTrace (m + 1) (some v) = v :: permVecTrace m (permSucc v) from rfl,
          hsucc, permVecTrace_none]
        simp
    · have hmain := permSucc_main v u hnodup hsucc
      have hu : u.Perm (List.range n) := hmain.1.trans hv
      obtain ⟨ih1, ih2, ih3⟩ := ih u hu
      refine ⟨?_, ?_, ?_⟩
      · simp [cRun, hnext, hsucc, permVecTrace, ih1]
      · intro w hw
        rw [show permVecTrace (m + 1) (some v) = v :: permVecTrace m (permSucc v) from rfl,
          hsucc] at hw
        rcases List.mem_cons.mp hw with rfl | hw2
        · exact hv
        · exact ih2 w hw2
      · rw [show permVecTrace (m + 1) (some v) = v :: permVecTrace m (permSucc v) from rfl,
          hsucc]
        cases m with
        | zero => simp [permVecTrace]
        | succ m2 =>
          rw [show permVecTrace (m2 + 1) (some u) = u :: permVecTrace m2 (permSucc u) from rfl]
          refine List.chain'_cons.mpr ⟨hmain.2.2, ?_⟩
          rw [show permVecTrace (m2 + 1) (some u)
            = u :: permVecTrace m2 (permSucc u) from rfl] at ih3
          exact ih3

/-- C6 (amended): for every NON-EMPTY finite buffer `B` with distinct
elements, `Permutations(B)` started at the identity index vector and pulled
to exhaustion yields exactly `|B|!` items, each a permutation of `B`, in
strictly increasing lexicographic index order with no repeats, and at every
intermediate state its reported `len()` equals the exact number of items
remaining.  (For the empty buffer the first pull panics instead of yielding
its single permutation — see the counterexample.) -/
theorem c6_permutations (buffer : List Obj) (hne : buffer ≠ []) (hnd : buffer.Nodup) :
    (cRun (Permutations.next buffer) (Nat.factorial buffer.length + 1)
        (some (List.range buffer.length))).2 = RunEnd.done ∧
    (cRun (Permutations.next buffer) (Nat.factorial buffer.length + 1)
        (some (List.range buffer.length))).1.length = Nat.factorial buffer.length ∧
    (∀ o ∈ (cRun (Permutations.next buffer) (Nat.factorial buffer.length + 1)
        (some (List.range buffer.length))).1, ∃ l, o = Obj.list l ∧ l.Perm buffer) ∧
    List.Chain' (fun x y => lexLtb x y = true)
      (permVecTrace (Nat.factorial buffer.length + 1) (some (List.range buffer.length))) ∧
    (cRun (Permutations.next buffer) (Nat.factorial buffer.length + 1)
        (some (List.range buffer.length))).1.Nodup ∧
    (∀ k, k ≤ Nat.factorial buffer.length →
      Permutations.len (permStep^[k] (some (List.range buffer.length))) =
        some (Nat.factorial buffer.length - k)) := by
  set n := buffer.length with hn
  have hn1 : 1 ≤ n := by
    rw [hn]
    exact List.length_pos.mpr hne
  have hdone : Permutations.next buffer none = CPull.done := rfl
  have hyield : ∀ v : List Nat, v.Perm (List.range n) →
      ∃ o, Permutations.next buffer (some v) = CPull.yield o (permSucc v) := by
    intro v hv
    have hlen : v.length = n := hv.length_eq.trans (List.length_range n)
    exact ⟨permOutput buffer v, perm_next_some buffer v (by omega)⟩
  have hpres : ∀ v u : List Nat, v.Perm (List.range n) → permSucc v = some u →
      u.Perm (List.range n) := by
    intro v u hv hsucc
    have hnodup : v.Nodup := (hv.nodup_iff).mpr (List.nodup_range n)
    exact (permSucc_main v u hnodup hsucc).1.trans hv
  have hdec : ∀ v u : List Nat, v.Perm (List.range n) → permSucc v = some u →
      permLenFold u + 1 = permLenFold v := by
    intro v u hv hsucc
    have hnodup : v.Nodup := (hv.nodup_iff).mpr (List.nodup_range n)
    exact (permSucc_main v u hnodup hsucc).2.1
  have hlast : ∀ v : List Nat, v.Perm (List.range n) → permSucc v = none →
      permLenFold v = 1 := by
    intro v hv hsucc
    exact permSucc_none_len v ((hv.nodup_iff).mpr (List.nodup_range n)) hsucc
  have hstartI : (List.range n).Perm (List.range n) := List.Perm.refl _
  have hstartL : permLenFold (List.range n) = Nat.factorial n := permLenFold_range n
  have hrun := cRun_exhaust (Permutations.next buffer) permSucc
    (fun v => v.Perm (List.range n)) permLenFold hdone hyield hpres hdec hlast
    (Nat.factorial n + 1) (List.range n) hstartI (by omega)
  obtain ⟨htr1, htr2, htr3⟩ := permVecTrace_props buffer n hn1 (Nat.factorial n + 1)
    (List.range n) hstartI
  have hstep : permStep = (fun st => Option.bind st permSucc) := rfl
  refine ⟨hrun.1, by rw [hrun.2, hstartL], ?_, htr3, ?_, ?_⟩
  · intro o ho
    rw [htr1] at ho
    obtain ⟨w, hw, rfl⟩ := List.mem_map.mp ho
    refine ⟨w.map (fun i => buffer.getD i default), rfl, ?_⟩
    have hwperm := (htr2 w hw).map (fun i => buffer.getD i default)
    rw [hn] at hwperm
    rw [map_getD_range] at hwperm
    exact hwperm
  · rw [htr1]
    apply (List.pairwise_map).mpr
    have hpairLex := pairwise_of_chain_lex _ htr3
    refine List.Pairwise.imp_of_mem ?_ hpairLex
    intro a b ha hb hlex
    have haP := htr2 a ha
    have hbP := htr2 b hb
    apply permOutput_inj_on buffer hnd a b
    · intro i hi
      have : i ∈ List.range n := haP.mem_iff.mp hi
      rw [hn] at this
      simpa using this
    · intro i hi
      have : i ∈ List.range n := hbP.mem_iff.mp hi
      rw [hn] at this
      simpa using this
    · exact (haP.length_eq.trans (List.length_range n)).trans
        ((hbP.length_eq.trans (List.length_range n)).symm)
    · rintro rfl
      rw [lexLtb_irrefl] at hlex
      exact Bool.noConfusion hlex
  · intro k hk
    rcases Nat.lt_or_ge k (Nat.factorial n) with hlt | hge
    · obtain ⟨u, hu, hIu, hLu⟩ := step_iterate_some permSucc (fun v => v.Perm (List.range n))
        permLenFold hpres hdec hlast k (List.range n) hstartI (by omega)
      rw [hstep, hu]
      show some (permLenFold u) = _
      rw [hLu, hstartL]
    · have hkeq : k = Nat.factorial n := by omega
      subst hkeq
      have hnone := step_iterate_exhaust permSucc (fun v => v.Perm (List.range n)) permLenFold
        hpres hdec hlast (Nat.factorial n) (List.range n) hstartI (by rw [hstartL])
      rw [hstep, hnone]
      show some 0 = some (Nat.factorial n - Nat.factorial n)
      rw [Nat.sub_self]

/-- C6 counterexample: for the empty buffer (whose elements are vacuously
distinct, with `0! = 1`), the very first pull hits the underflowing loop
bound `0..(0usize - 1)` and panics, so no item is ever yielded — the claim's
`|B|!` items are not produced. -/
theorem c6_counterexample :
    Permutations.next [] (some (List.range 0)) = CPull.panicked ∧
    (cRun (Permutations.next []) (Nat.factorial 0 + 1) (some (List.range 0))).2 =
      RunEnd.panicked ∧
    (cRun (Permutations.next []) (Nat.factorial 0 + 1) (some (List.range 0))).1.length = 0 ∧
    (0 : Nat) ≠ Nat.factorial 0 := by
  decide

/-- C6 witness: the amended claim at the concrete three-element buffer, with
the after-pull hypothesis discharged at `k = 4`. -/
theorem c6_witness :
    (cRun (Permutations.next [Obj.num 0, Obj.num 1, Obj.num 2]) (Nat.factorial 3 + 1)
        (some (List.range 3))).2 = RunEnd.done ∧
    (cRun (Permutations.next [Obj.num 0, Obj.num 1, Obj.num 2]) (Nat.factorial 3 + 1)
        (some (List.range 3))).1.length = Nat.factorial 3 ∧
    Permutations.len (permStep^[4] (some (List.range 3))) = some (Nat.factorial 3 - 4) :=
  ⟨(c6_permutations [Obj.num 0, Obj.num 1, Obj.num 2] (by decide) (by decide)).1,
    (c6_permutations [Obj.num 0, Obj.num 1, Obj.num 2] (by decide) (by decide)).2.1,
    (c6_permutations [Obj.num 0, Obj.num 1, Obj.num 2] (by decide) (by decide)).2.2.2.2.2 4
      (by decide)⟩

end Noulith
